import Mathlib

/-!
Verification of the statistics and alignment pipeline of the asset-analysis
application (`asset_analysis-app.py`).

The embedding models the program's pandas dataframes as association lists from
ticker symbols to frames of daily rows.  A frame row is a triple
`(date, adjClose, close)` with the date as a day number (`ℤ`) and prices as
exact rationals (`ℚ`); real-valued derived statistics (CAGR, volatility,
skewness, correlations) live in `ℝ`.  Floating-point rounding error and IEEE
NaN propagation are not modelled: a computation that yields NaN/raises in
Python is modelled by `Option`/outcome types at the branch where the program
observes it, and divisions that Python never evaluates on the guarded paths
use Lean's total division.
-/

namespace AssetAnalysis

/-- Ticker symbols are strings (already normalized by the input parser). -/
abbrev Ticker := String

/-- One ticker's raw daily table, as produced by the acquisition collaborator:
which of the two recognized price columns are present, and the list of rows
`(date, adjClose, close)`.  A cell of an absent column is never read by the
program (column access is guarded by membership tests), so its value is
immaterial. -/
structure Frame where
  hasAdjClose : Bool
  hasClose : Bool
  rows : List (ℤ × ℚ × ℚ)
deriving DecidableEq

/-- Lookup in an association list, mirroring Python dict access `d[k]`. -/
def dictGet {κ β : Type} [DecidableEq κ] (l : List (κ × β)) (k : κ) : Option β :=
  (l.find? (fun p => decide (p.1 = k))).map (fun p => p.2)

/-- Keys of an association list, mirroring `d.keys()`. -/
def dictKeys {κ β : Type} (l : List (κ × β)) : List κ :=
  l.map (fun p => p.1)

/-- Minimum of a list, mirroring `series.min()` (`none` on an empty series). -/
def listMin {α : Type} [LinearOrder α] : List α → Option α
  | [] => none
  | a :: l => some (l.foldl min a)

/-- Maximum of a list, mirroring `series.max()` (`none` on an empty series). -/
def listMax {α : Type} [LinearOrder α] : List α → Option α
  | [] => none
  | a :: l => some (l.foldl max a)

/-- The three data-alignment options offered by the UI radio selector. -/
inductive AlignOption
  | allAvailable
  | earliestCommon
  | customDate
deriving DecidableEq

/-- Start date of a ticker's series: `data.index.min()`. -/
def minDate (f : Frame) : Option ℤ :=
  listMin (f.rows.map (fun r => r.1))

/-- Common start date for the earliest-common-date policy:
`max(data.index.min() for data in data_dict.values())`.  `none` models the
`ValueError` that `max` raises on an empty dataset (empty frames, whose
`index.min()` is pandas `NaT`, are not modelled and are excluded by hypothesis
in the theorems that touch this definition). -/
def commonStartDate (dd : List (Ticker × Frame)) : Option ℤ :=
  listMax (dd.filterMap (fun p => minDate p.2))

/-- Keep only the rows whose date satisfies `p`: `data[pred(data.index)]`. -/
def trimFrame (f : Frame) (p : ℤ → Bool) : Frame :=
  { f with rows := f.rows.filter (fun r => p r.1) }

/-- Apply the same date-window filter to every series of the dataset:
`{ticker: data[pred] for ticker, data in data_dict.items()}`. -/
def trimAll (dd : List (Ticker × Frame)) (q : ℤ → Bool) : List (Ticker × Frame) :=
  dd.map (fun p => (p.1, trimFrame p.2 q))

/-- The trimming part of `align_stock_data` (lines 50–57): per-policy window
filter applied to every series.  `none` models the `ValueError` raised by
`max()` when the dataset is empty under the earliest-common-date policy. -/
def trimStage (dd : List (Ticker × Frame)) (opt : AlignOption)
    (cs ce : Option ℤ) : Option (List (Ticker × Frame)) :=
  match opt with
  | .earliestCommon =>
      (commonStartDate dd).map (fun c => trimAll dd (fun d => decide (c ≤ d)))
  | .customDate =>
      match cs, ce with
      | some a, some b => some (trimAll dd (fun d => decide (a ≤ d ∧ d ≤ b)))
      | _, _ => some dd
  | .allAvailable => some dd

/-- The whole of `align_stock_data` (lines 47–64): trim, drop series that
became empty, and return `{}` (here `[]`) when a `ValueError` was raised —
either by `max()` on an empty dataset or because every series is empty after
alignment. -/
def align_stock_data (dd : List (Ticker × Frame)) (opt : AlignOption)
    (cs ce : Option ℤ) : List (Ticker × Frame) :=
  match trimStage dd opt cs ce with
  | none => []
  | some dd1 =>
      if (dd1.filter (fun p => !p.2.rows.isEmpty)).isEmpty then []
      else dd1.filter (fun p => !p.2.rows.isEmpty)

/-- A row of the frame passed to `calculate_statistics`, seen through its
selected price column: `(date, price, cumulative return)`. -/
abbrev StatRow := ℤ × ℚ × ℚ

/-- Dates column of a statistics input frame. -/
def rowDates (rows : List StatRow) : List ℤ := rows.map (fun r => r.1)

/-- Selected price column of a statistics input frame. -/
def rowPrices (rows : List StatRow) : List ℚ := rows.map (fun r => r.2.1)

/-- Cumulative-return column of a statistics input frame. -/
def rowCumRet (rows : List StatRow) : List ℚ := rows.map (fun r => r.2.2)

/-- Number of days between the first and the last date:
`(data.index.max() - data.index.min()).days`. -/
def daysSpanned (rows : List StatRow) : ℤ :=
  (listMax (rowDates rows)).getD 0 - (listMin (rowDates rows)).getD 0

/-- Years elapsed: `(data.index.max() - data.index.min()).days / 365.25`. -/
def yearsOf (rows : List StatRow) : ℚ :=
  (daysSpanned rows : ℚ) / (1461 / 4)

/-- Final cumulative-return value: `data['Cumulative Return'].iloc[-1]`. -/
def finalValue (rows : List StatRow) : ℚ :=
  (rowCumRet rows).getLastD 0

/-- CAGR before rounding: `(final_value + 1) ** (1 / years) - 1`, with `**`
as the real power function. -/
noncomputable def cagrVal (fv y : ℚ) : ℝ :=
  ((fv : ℝ) + 1) ^ ((1 : ℝ) / (y : ℝ)) - 1

/-- Running maxima of a list continuing from an already-seen maximum `m`. -/
def cummaxFrom (m : ℚ) : List ℚ → List ℚ
  | [] => []
  | p :: ps => max m p :: cummaxFrom (max m p) ps

/-- Running maximum of the price series: `data[price_column].cummax()`. -/
def rollingMax : List ℚ → List ℚ
  | [] => []
  | p :: ps => p :: cummaxFrom p ps

/-- Pointwise drawdowns: `(data[price_column] - rolling_max) / rolling_max`. -/
def drawdownsOf (ps : List ℚ) : List ℚ :=
  List.zipWith (fun p m => (p - m) / m) ps (rollingMax ps)

/-- Maximum drawdown: `drawdowns.min()` (the default `0` is never read on the
guarded path, where the series has at least two rows). -/
def maxDrawdown (ps : List ℚ) : ℚ :=
  (listMin (drawdownsOf ps)).getD 0

/-- Daily returns: `data[price_column].pct_change().dropna()` (the leading
NaN produced by `pct_change` is dropped; prices are assumed NaN-free, as the
fetcher applied `dropna()`). -/
def dailyReturns (ps : List ℚ) : List ℚ :=
  List.zipWith (fun a b => b / a - 1) ps ps.tail

/-- Mean of a list of rationals. -/
def meanQ (l : List ℚ) : ℚ := l.sum / (l.length : ℚ)

/-- Biased central moment of order `k`, as used by `scipy.stats.skew` and
`scipy.stats.kurtosis` with their default `bias=True`. -/
def centralMoment (l : List ℚ) (k : ℕ) : ℚ :=
  ((l.map (fun r => (r - meanQ l) ^ k)).sum) / (l.length : ℚ)

/-- Skewness `m3 / m2^(3/2)` (`scipy.stats.skew`).  For constant input scipy
yields NaN; here Lean's total division returns a junk value instead, which no
verified claim inspects. -/
noncomputable def skewVal (l : List ℚ) : ℝ :=
  (centralMoment l 3 : ℝ) / (centralMoment l 2 : ℝ) ^ ((3 : ℝ) / 2)

/-- Excess kurtosis `m4 / m2^2 - 3` (`scipy.stats.kurtosis`, Fisher). -/
def kurtVal (l : List ℚ) : ℚ :=
  centralMoment l 4 / (centralMoment l 2) ^ 2 - 3

/-- Sample standard deviation with pandas' default `ddof=1`: `series.std()`. -/
noncomputable def sampleStd (l : List ℚ) : ℝ :=
  Real.sqrt ((((l.map (fun r => (r - meanQ l) ^ 2)).sum : ℚ) : ℝ) / ((l.length : ℝ) - 1))

/-- Annualized volatility: `daily_returns.std() * (252 ** 0.5)`. -/
noncomputable def volatilityVal (l : List ℚ) : ℝ :=
  sampleStd l * Real.sqrt 252

/-- Round a real to 4 decimal places, mirroring `round(x, 4)` (Python's
half-even tie rule is replaced by half-up; no verified claim depends on the
tie direction). -/
noncomputable def round4 (x : ℝ) : ℝ :=
  ((round (x * 10000) : ℤ) : ℝ) / 10000

/-- Round a rational to 4 decimal places. -/
def round4q (x : ℚ) : ℚ :=
  ((round (x * 10000) : ℤ) : ℚ) / 10000

/-- The record built by `calculate_statistics` (lines 86–96). -/
structure StatsRecord where
  startDate : ℤ
  endDate : ℤ
  years : ℚ
  cagrPct : ℝ
  maxDrawdownPct : ℚ
  volatilityPct : ℝ
  skewness : ℝ
  excessKurtosis : ℚ
  cumulativeReturnPct : ℚ

/-- The statistics calculator, `calculate_statistics` (lines 66–99).
`none` models returning the empty dict `{}`: for fewer than two rows
(line 69), for fewer than two daily returns (line 81), and for the caught
exceptions — `1 / years` raising `ZeroDivisionError` when the span is zero
days, and the complex value of `(final_value + 1) ** (1 / years)` for a
negative base making the later `round()` raise `TypeError` (both land in the
`except` branch at line 97, which reports the error and returns `{}`). -/
noncomputable def calculate_statistics (rows : List StatRow) : Option StatsRecord :=
  if rows.length < 2 then none
  else if daysSpanned rows = 0 then none
  else if finalValue rows + 1 < 0 then none
  else if (dailyReturns (rowPrices rows)).length < 2 then none
  else some
    { startDate := (listMin (rowDates rows)).getD 0
      endDate := (listMax (rowDates rows)).getD 0
      years := round4q (yearsOf rows)
      cagrPct := round4 (cagrVal (finalValue rows) (yearsOf rows) * 100)
      maxDrawdownPct := round4q (maxDrawdown (rowPrices rows) * 100)
      volatilityPct := round4 (volatilityVal (dailyReturns (rowPrices rows)) * 100)
      skewness := round4 (skewVal (dailyReturns (rowPrices rows)))
      excessKurtosis := round4q (kurtVal (dailyReturns (rowPrices rows)))
      cumulativeReturnPct := round4q (finalValue rows * 100) }

/-- Price column selection with fallback:
`next((col for col in PRICE_COLUMNS if col in data.columns), None)` with
`PRICE_COLUMNS = ['Adj Close', 'Close']`, followed by the column read. -/
def priceSeries (f : Frame) : Option (List (ℤ × ℚ)) :=
  if f.hasAdjClose then some (f.rows.map (fun r => (r.1, r.2.1)))
  else if f.hasClose then some (f.rows.map (fun r => (r.1, r.2.2)))
  else none

/-- Cumulative-return column added at line 205:
`data[price_col] / data[price_col].iloc[0] - 1`. -/
def cumRetSeries (ps : List (ℤ × ℚ)) (p0 : ℚ) : List (ℤ × ℚ) :=
  ps.map (fun r => (r.1, r.2 / p0 - 1))

/-- The dated price column and the cumulative-return column, zipped into the
row shape consumed by `calculate_statistics`. -/
def statRowsOf (ps cum : List (ℤ × ℚ)) : List StatRow :=
  List.zipWith (fun a b => (a.1, a.2, b.2)) ps cum

/-- Outcome of the per-ticker body of the statistics loop (lines 202–206). -/
inductive TickerOutcome
  | skipped
  | crash
  | done (rec : Option StatsRecord) (cum : List (ℤ × ℚ))

/-- One iteration of the statistics loop: skip the ticker when no recognized
price column exists; `data[price_col].iloc[0]` raises `IndexError` (uncaught)
on an empty column; otherwise annotate with the cumulative return and call
`calculate_statistics`. -/
noncomputable def perTickerStats (f : Frame) : TickerOutcome :=
  match priceSeries f with
  | none => .skipped
  | some [] => .crash
  | some ((d0, p0) :: tl) =>
      .done
        (calculate_statistics
          (statRowsOf ((d0, p0) :: tl) (cumRetSeries ((d0, p0) :: tl) p0)))
        (cumRetSeries ((d0, p0) :: tl) p0)

/-- The statistics loop over the aligned dataset (lines 201–206).  `none`
models an uncaught `IndexError` aborting the whole script. -/
noncomputable def statsStage :
    List (Ticker × Frame) → Option (List (Ticker × Option StatsRecord × List (ℤ × ℚ)))
  | [] => some []
  | (t, f) :: rest =>
      match perTickerStats f with
      | .skipped => statsStage rest
      | .crash => none
      | .done r cum => (statsStage rest).map (fun l => (t, r, cum) :: l)

/-- The ranking step (lines 208–213):
`sorted(stats_dict.keys(), key=lambda x: stats_dict[x]["Cumulative Return (%)"], reverse=True)`.
Computing the sort key raises `KeyError` on an empty record; `none` models
that uncaught exception.  Python's stable descending sort is modelled by a
stable insertion sort under the reversed key comparison. -/
def rankTickers (stats : List (Ticker × Option StatsRecord)) : Option (List Ticker) :=
  if stats.all (fun p => p.2.isSome) then
    some (((stats.filterMap (fun p => p.2.map (fun r => (p.1, r.cumulativeReturnPct)))).insertionSort
      (fun a b => b.2 ≤ a.2)).map (fun p => p.1))
  else none

/-- Daily-return series keyed by date for one ticker's `'Adj Close'` column:
`data['Adj Close'].pct_change().dropna()` (the return at each date is the
percentage change from the previous row; the first row is dropped). -/
def dReturns (s : List (ℤ × ℚ)) : List (ℤ × ℚ) :=
  List.zipWith (fun a b => (b.1, b.2 / a.2 - 1)) s s.tail

/-- The `'Adj Close'` column with its dates. -/
def adjSeries (f : Frame) : List (ℤ × ℚ) :=
  f.rows.map (fun r => (r.1, r.2.1))

/-- Value of a dated series at a date, mirroring index-based lookup. -/
def seriesGet (s : List (ℤ × ℚ)) (d : ℤ) : Option ℚ :=
  (s.find? (fun r => decide (r.1 = d))).map (fun r => r.2)

/-- The pairwise-complete observations for two dated series: dates present in
both, with the two values.  This is the implicit inner join on date performed
by `pd.DataFrame(...)` + `.corr()`, which excludes rows with a missing value
pairwise. -/
def overlapPairs (s1 s2 : List (ℤ × ℚ)) : List (ℤ × ℚ × ℚ) :=
  s1.filterMap (fun r => (seriesGet s2 r.1).map (fun y => (r.1, r.2, y)))

/-- Mean of the first coordinate over the joined observations. -/
def meanX (l : List (ℤ × ℚ × ℚ)) : ℚ := meanQ (l.map (fun r => r.2.1))

/-- Mean of the second coordinate over the joined observations. -/
def meanY (l : List (ℤ × ℚ × ℚ)) : ℚ := meanQ (l.map (fun r => r.2.2))

/-- Centered sum of squares of the first coordinate. -/
def sxx (l : List (ℤ × ℚ × ℚ)) : ℚ :=
  (l.map (fun r => (r.2.1 - meanX l) ^ 2)).sum

/-- Centered sum of squares of the second coordinate. -/
def syy (l : List (ℤ × ℚ × ℚ)) : ℚ :=
  (l.map (fun r => (r.2.2 - meanY l) ^ 2)).sum

/-- Centered sum of cross products. -/
def sxy (l : List (ℤ × ℚ × ℚ)) : ℚ :=
  (l.map (fun r => (r.2.1 - meanX l) * (r.2.2 - meanY l))).sum

/-- Pearson correlation of two dated return series over their pairwise-complete
observations, as computed by `DataFrame.corr()`: `none` models the NaN that
pandas produces when either series is constant (zero variance) on the overlap,
including the no-overlap and single-observation cases. -/
noncomputable def corrEntry (s1 s2 : List (ℤ × ℚ)) : Option ℝ :=
  if sxx (overlapPairs s1 s2) = 0 ∨ syy (overlapPairs s1 s2) = 0 then none
  else some ((sxy (overlapPairs s1 s2) : ℝ) /
    Real.sqrt ((sxx (overlapPairs s1 s2) : ℝ) * (syy (overlapPairs s1 s2) : ℝ)))

/-- The correlation table produced by `calculate_correlation_table`
(lines 101–120): row and column axes in the supplied order, entries rounded to
4 decimals.  Only tickers whose frame carries an `'Adj Close'` column
contribute return series (line 106); the reorder
`correlation_matrix.loc[sorted_tickers, sorted_tickers]` raises `KeyError`
(modelled by the outer `none`) as soon as a requested ticker is not among
those contributors. -/
structure CorrMatrix where
  rowTickers : List Ticker
  colTickers : List Ticker
  entry : Ticker → Ticker → Option ℝ

/-- The correlation engine, `calculate_correlation_table` (lines 101–120). -/
noncomputable def calculate_correlation_table (dd : List (Ticker × Frame))
    (sorted : List Ticker) : Option CorrMatrix :=
  if sorted.all (fun t => (dictGet (dd.filter (fun p => p.2.hasAdjClose)) t).isSome) then
    some
      { rowTickers := sorted
        colTickers := sorted
        entry := fun a b =>
          match dictGet (dd.filter (fun p => p.2.hasAdjClose)) a,
              dictGet (dd.filter (fun p => p.2.hasAdjClose)) b with
          | some fa, some fb =>
              (corrEntry (dReturns (adjSeries fa)) (dReturns (adjSeries fb))).map round4
          | _, _ => none }
  else none

/-- Chart input assembled by `plot_cumulative_returns` (lines 133–140): one
cumulative-return trace per ticker, in rank order. -/
def chartData (stats : List (Ticker × Option StatsRecord × List (ℤ × ℚ)))
    (sorted : List Ticker) : List (Ticker × List (ℤ × ℚ)) :=
  sorted.filterMap (fun t => (dictGet stats t).map (fun p => (t, p.2)))

/-- Everything the pipeline hands to the presentation layer on a successful
run. -/
structure PipelineResult where
  stats : List (Ticker × Option StatsRecord)
  sortedTickers : List Ticker
  corr : Option CorrMatrix
  chart : List (Ticker × List (ℤ × ℚ))

/-- Result of one pipeline run: `halted` when the post-alignment dataset is
empty (the `if data_dict:` guard at line 200 skips every downstream stage),
`crash` for an uncaught exception, `ok` otherwise. -/
inductive PipeOutcome
  | halted
  | crash
  | ok (res : PipelineResult)

/-- The alignment dispatch (lines 195–198): `align_stock_data` is invoked for
the earliest-common-date and custom-date options only; the all-available
option leaves the fetched dataset untouched. -/
def alignedOf (dd : List (Ticker × Frame)) (opt : AlignOption)
    (cs ce : Option ℤ) : List (Ticker × Frame) :=
  match opt with
  | .allAvailable => dd
  | _ => align_stock_data dd opt cs ce

/-- The tail of the pipeline once ranking has been attempted: a `KeyError`
from the sort key (ranking `none`) aborts the run; otherwise the correlation
matrix is computed when more than one ticker survived alignment (line 222),
`KeyError` from the matrix reorder aborts, and the result is handed to the
presentation layer together with the chart data. -/
noncomputable def pipelineAfterRank (aligned : List (Ticker × Frame))
    (stats : List (Ticker × Option StatsRecord × List (ℤ × ℚ)))
    (ranked : Option (List Ticker)) : PipeOutcome :=
  match ranked with
  | none => .crash
  | some sorted =>
      if 1 < aligned.length then
        match calculate_correlation_table aligned sorted with
        | none => .crash
        | some m =>
            .ok { stats := stats.map (fun p => (p.1, p.2.1))
                  sortedTickers := sorted
                  corr := some m
                  chart := chartData stats sorted }
      else
        .ok { stats := stats.map (fun p => (p.1, p.2.1))
              sortedTickers := sorted
              corr := none
              chart := chartData stats sorted }

/-- The tail of the pipeline once the statistics loop has run: an uncaught
`IndexError` in the loop (`none`) aborts the run; otherwise ranking is
attempted. -/
noncomputable def pipelineAfterStats (aligned : List (Ticker × Frame))
    (st : Option (List (Ticker × Option StatsRecord × List (ℤ × ℚ)))) :
    PipeOutcome :=
  match st with
  | none => .crash
  | some stats =>
      pipelineAfterRank aligned stats (rankTickers (stats.map (fun p => (p.1, p.2.1))))

/-- One full pipeline pass over an already-fetched dataset (lines 195–234):
alignment dispatch, empty-dataset guard, statistics loop, ranking, correlation
(only when more than one ticker survived alignment), chart assembly. -/
noncomputable def runPipeline (dd : List (Ticker × Frame)) (opt : AlignOption)
    (cs ce : Option ℤ) : PipeOutcome :=
  if (alignedOf dd opt cs ce).isEmpty then .halted
  else pipelineAfterStats (alignedOf dd opt cs ce) (statsStage (alignedOf dd opt cs ce))

/-- Python `str.strip()` on the character list of a string. -/
def pyStrip (s : List Char) : List Char :=
  ((s.dropWhile Char.isWhitespace).reverse.dropWhile Char.isWhitespace).reverse

/-- Python `str.split(',')` on the character list of a string. -/
def pySplitComma : List Char → List (List Char)
  | [] => [[]]
  | c :: rest =>
      let r := pySplitComma rest
      if c = ',' then [] :: r
      else
        match r with
        | [] => [[c]]
        | g :: gs => (c :: g) :: gs

/-- Python `str.upper()` on the character list of a string. -/
def pyUpper (s : List Char) : List Char := s.map Char.toUpper

/-- The ticker-input normalization (lines 164–165):
`[ticker.strip().upper() for ticker in text.split(',') if ticker.strip()]`. -/
def parseTickers (s : List Char) : List (List Char) :=
  (pySplitComma s).filterMap
    (fun t => if pyStrip t = [] then none else some (pyUpper (pyStrip t)))

/-- Python dict insertion `d[k] = v`: overwrite in place when the key exists,
append otherwise. -/
def dictInsert {κ β : Type} [DecidableEq κ] (d : List (κ × β)) (k : κ) (v : β) :
    List (κ × β) :=
  if d.any (fun p => decide (p.1 = k)) then
    d.map (fun p => if p.1 = k then (k, v) else p)
  else d ++ [(k, v)]

/-- The dataset construction inside `fetch_stock_data` (line 41):
`{ticker: data[ticker].dropna() for ticker in tickers}` — a dict comprehension
over the (possibly repetitious) normalized ticker list, with `raw` standing
for the per-ticker table delivered by the external `yf.download` call. -/
def fetchDataset {κ : Type} [DecidableEq κ] (tickers : List κ) (raw : κ → Frame) :
    List (κ × Frame) :=
  tickers.foldl (fun d t => dictInsert d t (raw t)) []

/-- The date window that `align_stock_data` keeps for a given dataset, policy
and custom bounds: everything for the all-available policy (and for a custom
policy with a missing bound, which the code treats as a no-op), dates at or
after the common start for the earliest-common-date policy, and the inclusive
custom range otherwise. -/
def policyKeeps (dd : List (Ticker × Frame)) (opt : AlignOption)
    (cs ce : Option ℤ) : ℤ → Bool :=
  match opt with
  | .allAvailable => fun _ => true
  | .earliestCommon =>
      match commonStartDate dd with
      | some c => fun d => decide (c ≤ d)
      | none => fun _ => true
  | .customDate =>
      match cs, ce with
      | some a, some b => fun d => decide (a ≤ d ∧ d ≤ b)
      | _, _ => fun _ => true

section FoldLemmas

variable {α : Type} [LinearOrder α]

theorem foldl_min_le_init (l : List α) (a : α) : l.foldl min a ≤ a := by
  induction l generalizing a with
  | nil => exact le_refl a
  | cons b t ih => exact le_trans (ih (min a b)) (min_le_left a b)

theorem foldl_min_le_mem {l : List α} {x : α} (hx : x ∈ l) (a : α) :
    l.foldl min a ≤ x := by
  induction l generalizing a with
  | nil => cases hx
  | cons b t ih =>
    rcases List.mem_cons.1 hx with rfl | hx
    · exact le_trans (foldl_min_le_init t (min a x)) (min_le_right a x)
    · exact ih hx (min a b)

theorem foldl_min_choice (l : List α) (a : α) :
    l.foldl min a = a ∨ l.foldl min a ∈ l := by
  induction l generalizing a with
  | nil => exact Or.inl rfl
  | cons b t ih =>
    simp only [List.foldl_cons]
    rcases ih (min a b) with h | h
    · rcases le_total a b with hab | hab
      · exact Or.inl (h.trans (min_eq_left hab))
      · refine Or.inr ?_
        rw [h, min_eq_right hab]
        exact List.mem_cons.2 (Or.inl rfl)
    · exact Or.inr (List.mem_cons.2 (Or.inr h))

theorem le_foldl_max_init (l : List α) (a : α) : a ≤ l.foldl max a := by
  induction l generalizing a with
  | nil => exact le_refl a
  | cons b t ih => exact le_trans (le_max_left a b) (ih (max a b))

theorem mem_le_foldl_max {l : List α} {x : α} (hx : x ∈ l) (a : α) :
    x ≤ l.foldl max a := by
  induction l generalizing a with
  | nil => cases hx
  | cons b t ih =>
    rcases List.mem_cons.1 hx with rfl | hx
    · exact le_trans (le_max_right a x) (le_foldl_max_init t (max a x))
    · exact ih hx (max a b)

theorem foldl_max_choice (l : List α) (a : α) :
    l.foldl max a = a ∨ l.foldl max a ∈ l := by
  induction l generalizing a with
  | nil => exact Or.inl rfl
  | cons b t ih =>
    simp only [List.foldl_cons]
    rcases ih (max a b) with h | h
    · rcases le_total b a with hab | hab
      · exact Or.inl (h.trans (max_eq_left hab))
      · refine Or.inr ?_
        rw [h, max_eq_right hab]
        exact List.mem_cons.2 (Or.inl rfl)
    · exact Or.inr (List.mem_cons.2 (Or.inr h))

theorem listMin_le_mem {l : List α} {m x : α} (hm : listMin l = some m)
    (hx : x ∈ l) : m ≤ x := by
  cases l with
  | nil => cases hm
  | cons a t =>
    simp only [listMin, Option.some.injEq] at hm
    subst hm
    rcases List.mem_cons.1 hx with rfl | hx
    · exact foldl_min_le_init t x
    · exact foldl_min_le_mem hx a

theorem listMin_mem {l : List α} {m : α} (hm : listMin l = some m) : m ∈ l := by
  cases l with
  | nil => cases hm
  | cons a t =>
    simp only [listMin, Option.some.injEq] at hm
    subst hm
    rcases foldl_min_choice t a with h | h
    · rw [h]
      exact List.mem_cons.2 (Or.inl rfl)
    · exact List.mem_cons.2 (Or.inr h)

theorem mem_le_listMax {l : List α} {m x : α} (hm : listMax l = some m)
    (hx : x ∈ l) : x ≤ m := by
  cases l with
  | nil => cases hm
  | cons a t =>
    simp only [listMax, Option.some.injEq] at hm
    subst hm
    rcases List.mem_cons.1 hx with rfl | hx
    · exact le_foldl_max_init t x
    · exact mem_le_foldl_max hx a

theorem listMax_mem {l : List α} {m : α} (hm : listMax l = some m) : m ∈ l := by
  cases l with
  | nil => cases hm
  | cons a t =>
    simp only [listMax, Option.some.injEq] at hm
    subst hm
    rcases foldl_max_choice t a with h | h
    · rw [h]
      exact List.mem_cons.2 (Or.inl rfl)
    · exact List.mem_cons.2 (Or.inr h)

theorem listMax_isSome_of_ne_nil {l : List α} (h : l ≠ []) :
    ∃ m, listMax l = some m := by
  cases l with
  | nil => exact absurd rfl h
  | cons a t => exact ⟨t.foldl max a, rfl⟩

end FoldLemmas

section MaxDrawdown

theorem drawdowns_from_nonpos {m : ℚ} (hm : 0 < m) {tl : List ℚ}
    (hpos : ∀ q ∈ tl, 0 < q) :
    ∀ x ∈ List.zipWith (fun p mx => (p - mx) / mx) tl (cummaxFrom m tl), x ≤ 0 := by
  induction tl generalizing m with
  | nil => intro x hx; cases hx
  | cons q rest ih =>
    intro x hx
    simp only [cummaxFrom, List.zipWith_cons_cons, List.mem_cons] at hx
    rcases hx with rfl | hx
    · apply div_nonpos_of_nonpos_of_nonneg
      · exact sub_nonpos.2 (le_max_right m q)
      · exact le_of_lt (lt_of_lt_of_le hm (le_max_left m q))
    · exact ih (lt_max_of_lt_left hm)
        (fun p hp => hpos p (List.mem_cons.2 (Or.inr hp))) x hx

theorem drawdowns_from_zero_iff {m : ℚ} (hm : 0 < m) {tl : List ℚ}
    (hpos : ∀ q ∈ tl, 0 < q) :
    (∀ x ∈ List.zipWith (fun p mx => (p - mx) / mx) tl (cummaxFrom m tl), x = 0) ↔
      List.Chain (· ≤ ·) m tl := by
  induction tl generalizing m with
  | nil => simp
  | cons q rest ih =>
    have hq : 0 < q := hpos q (List.mem_cons.2 (Or.inl rfl))
    have hmax : (0 : ℚ) < max m q := lt_max_of_lt_left hm
    have hrest : ∀ p ∈ rest, 0 < p :=
      fun p hp => hpos p (List.mem_cons.2 (Or.inr hp))
    simp only [cummaxFrom, List.zipWith_cons_cons, List.mem_cons, List.chain_cons]
    constructor
    · intro h
      have hhead : (q - max m q) / max m q = 0 := h _ (Or.inl rfl)
      have hq0 : q - max m q = 0 := by
        rcases div_eq_zero_iff.1 hhead with h0 | h0
        · exact h0
        · exact absurd h0 (ne_of_gt hmax)
      have hmq : m ≤ q := by
        have : max m q = q := by linarith [sub_eq_zero.1 hq0]
        exact max_eq_right_iff.1 this
      refine ⟨hmq, ?_⟩
      have hmaxeq : max m q = q := max_eq_right hmq
      have hmaxpos : (0 : ℚ) < max m q := by rw [hmaxeq]; exact hq
      have := (ih hmaxpos hrest).1 (fun x hx => h x (Or.inr hx))
      rw [hmaxeq] at this
      exact this
    · rintro ⟨hmq, hchain⟩
      have hmaxeq : max m q = q := max_eq_right hmq
      have hmaxpos : (0 : ℚ) < max m q := by rw [hmaxeq]; exact hq
      have hchain2 : List.Chain (· ≤ ·) (max m q) rest := by
        rw [hmaxeq]; exact hchain
      intro x hx
      rcases hx with rfl | hx
      · rw [hmaxeq, sub_self, zero_div]
      · exact (ih hmaxpos hrest).2 hchain2 x hx

/-- C6.  For every price series with at least two strictly positive
observations, the computed max drawdown — the minimum over the series of
`(price - running_max) / running_max` as in lines 77–79 — is nonpositive, and
it is zero exactly when the price series is nondecreasing throughout. -/
theorem max_drawdown_postcondition (ps : List ℚ) (h2 : 2 ≤ ps.length)
    (hpos : ∀ p ∈ ps, 0 < p) :
    maxDrawdown ps ≤ 0 ∧ (maxDrawdown ps = 0 ↔ List.Chain' (· ≤ ·) ps) := by
  cases ps with
  | nil => simp at h2
  | cons p tl =>
    have hp : 0 < p := hpos p (List.mem_cons.2 (Or.inl rfl))
    have htl : ∀ q ∈ tl, 0 < q := fun q hq => hpos q (List.mem_cons.2 (Or.inr hq))
    have hdd : drawdownsOf (p :: tl) =
        0 :: List.zipWith (fun q mx => (q - mx) / mx) tl (cummaxFrom p tl) := by
      simp [drawdownsOf, rollingMax, sub_self, zero_div]
    set rest := List.zipWith (fun q mx => (q - mx) / mx) tl (cummaxFrom p tl) with hrest
    have hmdd : maxDrawdown (p :: tl) = rest.foldl min 0 := by
      rw [maxDrawdown, hdd]
      rfl
    have hle : maxDrawdown (p :: tl) ≤ 0 := hmdd ▸ foldl_min_le_init rest 0
    refine ⟨hle, ?_⟩
    have hnonpos := drawdowns_from_nonpos hp htl
    constructor
    · intro h0
      have hall : ∀ x ∈ rest, x = 0 := by
        intro x hx
        have h1 : rest.foldl min 0 ≤ x := foldl_min_le_mem hx 0
        have h2x : x ≤ 0 := hnonpos x hx
        have : (0 : ℚ) ≤ x := by rw [hmdd] at h0; linarith [h0 ▸ h1]
        linarith
      have := (drawdowns_from_zero_iff hp htl).1 hall
      exact this
    · intro hchain
      have hchain' : List.Chain (· ≤ ·) p tl := hchain
      have hall : ∀ x ∈ rest, x = 0 := (drawdowns_from_zero_iff hp htl).2 hchain'
      rw [hmdd]
      rcases foldl_min_choice rest 0 with h | h
      · exact h
      · exact hall _ h

/-- Witness for C6 at the concrete series `[1, 2]`. -/
theorem max_drawdown_postcondition_witness :
    maxDrawdown [(1 : ℚ), 2] ≤ 0 ∧
      (maxDrawdown [(1 : ℚ), 2] = 0 ↔ List.Chain' (· ≤ ·) [(1 : ℚ), 2]) :=
  max_drawdown_postcondition [(1 : ℚ), 2] (by decide) (by decide)

end MaxDrawdown

section Cagr

theorem yearsOf_pos {rows : List StatRow} (hy : 0 < daysSpanned rows) :
    0 < yearsOf rows := by
  have h1 : (0 : ℚ) < (daysSpanned rows : ℚ) := by exact_mod_cast hy
  have h2 : (0 : ℚ) < 1461 / 4 := by norm_num
  exact div_pos h1 h2

/-- C7.  For every statistics input with at least two observations spanning a
positive number of days and with `final_value + 1 > 0`, the CAGR computed at
line 76 satisfies `(1 + CAGR) ^ years = final_value + 1` exactly (before
rounding), and the record field stores exactly the 4-decimal rounding of that
CAGR expressed in percent. -/
theorem cagr_roundtrip (rows : List StatRow) (h2 : 2 ≤ rows.length)
    (hy : 0 < daysSpanned rows) (hfv : -1 < finalValue rows) :
    (1 + cagrVal (finalValue rows) (yearsOf rows)) ^ ((yearsOf rows : ℚ) : ℝ) =
      (finalValue rows : ℝ) + 1 ∧
    (∀ rec, calculate_statistics rows = some rec →
      rec.cagrPct = round4 (cagrVal (finalValue rows) (yearsOf rows) * 100)) := by
  constructor
  · have hyq : (0 : ℝ) < ((yearsOf rows : ℚ) : ℝ) := by
      exact_mod_cast yearsOf_pos hy
    have hF : (0 : ℝ) < (finalValue rows : ℝ) + 1 := by
      have : (-1 : ℚ) < finalValue rows := hfv
      have h' : (-1 : ℝ) < (finalValue rows : ℝ) := by exact_mod_cast this
      linarith
    set F : ℝ := (finalValue rows : ℝ) + 1 with hFdef
    set y : ℝ := ((yearsOf rows : ℚ) : ℝ) with hydef
    have hstep : 1 + cagrVal (finalValue rows) (yearsOf rows) = F ^ ((1 : ℝ) / y) := by
      rw [cagrVal]
      ring
    rw [hstep, ← Real.rpow_mul (le_of_lt hF),
      one_div_mul_cancel (ne_of_gt hyq), Real.rpow_one]
  · intro rec h
    rw [calculate_statistics] at h
    split_ifs at h with h1 h2 h3 h4
    injection h with h
    rw [← h]

end Cagr

/-- Witness for C7 at a two-row series spanning 365 days with final cumulative
return 1. -/
theorem cagr_roundtrip_witness :
    (1 + cagrVal (finalValue [((0 : ℤ), (1 : ℚ), (0 : ℚ)), (365, 1, 1)])
        (yearsOf [((0 : ℤ), (1 : ℚ), (0 : ℚ)), (365, 1, 1)])) ^
      ((yearsOf [((0 : ℤ), (1 : ℚ), (0 : ℚ)), (365, 1, 1)] : ℚ) : ℝ) =
      (finalValue [((0 : ℤ), (1 : ℚ), (0 : ℚ)), (365, 1, 1)] : ℝ) + 1 ∧
    (∀ rec, calculate_statistics [((0 : ℤ), (1 : ℚ), (0 : ℚ)), (365, 1, 1)] = some rec →
      rec.cagrPct = round4 (cagrVal (finalValue [((0 : ℤ), (1 : ℚ), (0 : ℚ)), (365, 1, 1)])
        (yearsOf [((0 : ℤ), (1 : ℚ), (0 : ℚ)), (365, 1, 1)]) * 100)) :=
  cagr_roundtrip _ (by decide) (by decide) (by decide)

/-- C8.  The statistics calculator returns a populated record only when the
series has at least two observations and at least two daily returns; in the
insufficient cases it returns the empty result (it never propagates an
exception: every failure path is a plain `{}` return). -/
theorem stats_presence_guard (rows : List StatRow) :
    (∀ rec, calculate_statistics rows = some rec →
        2 ≤ rows.length ∧ 2 ≤ (dailyReturns (rowPrices rows)).length) ∧
    ((rows.length < 2 ∨ (dailyReturns (rowPrices rows)).length < 2) →
      calculate_statistics rows = none) := by
  constructor
  · intro rec h
    rw [calculate_statistics] at h
    split_ifs at h with h1 h2 h3 h4
    exact ⟨le_of_not_lt h1, le_of_not_lt h4⟩
  · intro hbad
    rw [calculate_statistics]
    split_ifs with h1 h2 h3 h4
    any_goals rfl
    rcases hbad with hb | hb
    · exact absurd hb h1
    · exact absurd hb h4

/-- Witness for C8 at the single-observation series. -/
theorem stats_presence_guard_witness :
    (∀ rec, calculate_statistics [((0 : ℤ), (1 : ℚ), (0 : ℚ))] = some rec →
        2 ≤ ([((0 : ℤ), (1 : ℚ), (0 : ℚ))] : List StatRow).length ∧
        2 ≤ (dailyReturns (rowPrices [((0 : ℤ), (1 : ℚ), (0 : ℚ))])).length) ∧
    ((([((0 : ℤ), (1 : ℚ), (0 : ℚ))] : List StatRow).length < 2 ∨
        (dailyReturns (rowPrices [((0 : ℤ), (1 : ℚ), (0 : ℚ))])).length < 2) →
      calculate_statistics [((0 : ℤ), (1 : ℚ), (0 : ℚ))] = none) :=
  stats_presence_guard [((0 : ℤ), (1 : ℚ), (0 : ℚ))]

section DictLemmas

variable {κ β γ : Type} [DecidableEq κ]

theorem dictGet_map_value (g : β → γ) (l : List (κ × β)) (t : κ) :
    dictGet (l.map (fun p => (p.1, g p.2))) t = (dictGet l t).map g := by
  induction l with
  | nil => rfl
  | cons p rest ih =>
    by_cases h : p.1 = t
    · simp [dictGet, List.find?, h]
    · simpa [dictGet, List.find?, h] using ih

theorem mem_of_dictGet {l : List (κ × β)} {t : κ} {v : β}
    (h : dictGet l t = some v) : (t, v) ∈ l := by
  rw [dictGet] at h
  cases hf : l.find? (fun p => decide (p.1 = t)) with
  | none => rw [hf] at h; cases h
  | some pr =>
    rw [hf] at h
    have hmem := List.mem_of_find?_eq_some hf
    have hpred := List.find?_some hf
    have h1 : pr.1 = t := of_decide_eq_true hpred
    have h2 : pr.2 = v := by
      simpa using h
    have : pr = (t, v) := by
      cases pr
      simp only at h1 h2
      rw [h1, h2]
    exact this ▸ hmem

theorem dictGet_of_mem {l : List (κ × β)} {t : κ} {v : β}
    (hmem : (t, v) ∈ l) (hnodup : (dictKeys l).Nodup) : dictGet l t = some v := by
  induction l with
  | nil => cases hmem
  | cons p rest ih =>
    rw [dictKeys, List.map_cons, List.nodup_cons] at hnodup
    rcases List.mem_cons.1 hmem with heq | hmem'
    · rw [← heq]
      simp [dictGet, List.find?]
    · have hne : ¬p.1 = t := by
        intro hpt
        apply hnodup.1
        rw [hpt]
        exact List.mem_map.2 ⟨(t, v), hmem', rfl⟩
      simpa [dictGet, List.find?, hne] using ih hmem' hnodup.2

theorem dictKeys_map_value (g : β → γ) (l : List (κ × β)) :
    dictKeys (l.map (fun p => (p.1, g p.2))) = dictKeys l := by
  simp [dictKeys, List.map_map]

theorem dictKeys_filter_sublist (q : κ × β → Bool) (l : List (κ × β)) :
    (dictKeys (l.filter q)).Sublist (dictKeys l) := by
  rw [dictKeys, dictKeys]
  exact (List.filter_sublist l).map (fun p => p.1)

theorem dictGet_filter_some {q : κ × β → Bool} {l : List (κ × β)} {t : κ} {v : β}
    (hnodup : (dictKeys l).Nodup) (h : dictGet (l.filter q) t = some v) :
    dictGet l t = some v :=
  dictGet_of_mem (List.mem_of_mem_filter (mem_of_dictGet h)) hnodup

theorem dictKeys_subset_of_filter {q : κ × β → Bool} {l : List (κ × β)} :
    ∀ t ∈ dictKeys (l.filter q), t ∈ dictKeys l :=
  fun _ ht => (dictKeys_filter_sublist q l).subset ht

end DictLemmas

section Alignment

theorem trimFrame_true (f : Frame) : trimFrame f (fun _ => true) = f := by
  cases f
  simp [trimFrame]

theorem dictKeys_trimAll (dd : List (Ticker × Frame)) (q : ℤ → Bool) :
    dictKeys (trimAll dd q) = dictKeys dd := by
  rw [trimAll]
  exact dictKeys_map_value (fun f => trimFrame f q) dd

theorem dictGet_trimAll (dd : List (Ticker × Frame)) (q : ℤ → Bool) (t : Ticker) :
    dictGet (trimAll dd q) t = (dictGet dd t).map (fun f => trimFrame f q) := by
  rw [trimAll]
  exact dictGet_map_value (fun f => trimFrame f q) dd t

theorem trimStage_keys {dd dd1 : List (Ticker × Frame)} {opt : AlignOption}
    {cs ce : Option ℤ} (htrim : trimStage dd opt cs ce = some dd1) :
    dictKeys dd1 = dictKeys dd := by
  cases opt with
  | allAvailable =>
    have h : some dd = some dd1 := htrim
    rw [← Option.some.inj h]
  | earliestCommon =>
    cases hc : commonStartDate dd with
    | none =>
      rw [trimStage, hc] at htrim
      cases htrim
    | some c =>
      rw [trimStage, hc] at htrim
      have h := Option.some.inj htrim
      rw [← h, dictKeys_trimAll]
  | customDate =>
    cases cs with
    | none =>
      have h : some dd = some dd1 := htrim
      rw [← Option.some.inj h]
    | some a =>
      cases ce with
      | none =>
        have h : some dd = some dd1 := htrim
        rw [← Option.some.inj h]
      | some b =>
        have h : some (trimAll dd (fun d => decide (a ≤ d ∧ d ≤ b))) = some dd1 := htrim
        rw [← Option.some.inj h, dictKeys_trimAll]

theorem trimStage_get {dd dd1 : List (Ticker × Frame)} {opt : AlignOption}
    {cs ce : Option ℤ} (htrim : trimStage dd opt cs ce = some dd1) (t : Ticker) :
    dictGet dd1 t =
      (dictGet dd t).map (fun f => trimFrame f (policyKeeps dd opt cs ce)) := by
  cases opt with
  | allAvailable =>
    have h : some dd = some dd1 := htrim
    rw [← Option.some.inj h]
    have hpol : policyKeeps dd .allAvailable cs ce = fun _ => true := rfl
    rw [hpol]
    cases hget : dictGet dd t with
    | none => rfl
    | some f => simp [trimFrame_true]
  | earliestCommon =>
    cases hc : commonStartDate dd with
    | none =>
      rw [trimStage, hc] at htrim
      cases htrim
    | some c =>
      rw [trimStage, hc] at htrim
      have h := Option.some.inj htrim
      have hpol : policyKeeps dd .earliestCommon cs ce = fun d => decide (c ≤ d) := by
        rw [policyKeeps, hc]
      rw [← h, hpol, dictGet_trimAll]
  | customDate =>
    cases cs with
    | none =>
      have h : some dd = some dd1 := htrim
      rw [← Option.some.inj h]
      have hpol : policyKeeps dd .customDate none ce = fun _ => true := rfl
      rw [hpol]
      cases hget : dictGet dd t with
      | none => rfl
      | some f => simp [trimFrame_true]
    | some a =>
      cases ce with
      | none =>
        have h : some dd = some dd1 := htrim
        rw [← Option.some.inj h]
        have hpol : policyKeeps dd .customDate (some a) none = fun _ => true := rfl
        rw [hpol]
        cases hget : dictGet dd t with
        | none => rfl
        | some f => simp [trimFrame_true]
      | some b =>
        have h : some (trimAll dd (fun d => decide (a ≤ d ∧ d ≤ b))) = some dd1 := htrim
        have hpol : policyKeeps dd .customDate (some a) (some b) =
            fun d => decide (a ≤ d ∧ d ≤ b) := rfl
        rw [← Option.some.inj h, hpol, dictGet_trimAll]

theorem align_get_to_trim {dd dd1 : List (Ticker × Frame)} {opt : AlignOption}
    {cs ce : Option ℤ} (htrim : trimStage dd opt cs ce = some dd1)
    (hnd : (dictKeys dd1).Nodup) {t : Ticker} {f2 : Frame}
    (h : dictGet (align_stock_data dd opt cs ce) t = some f2) :
    dictGet dd1 t = some f2 := by
  rw [align_stock_data, htrim] at h
  have h2 : dictGet (if (dd1.filter (fun p => !p.2.rows.isEmpty)).isEmpty then []
      else dd1.filter (fun p => !p.2.rows.isEmpty)) t = some f2 := h
  by_cases he : (dd1.filter (fun p => !p.2.rows.isEmpty)).isEmpty
  · rw [if_pos he] at h2
    exact absurd h2 (by simp [dictGet])
  · rw [if_neg he] at h2
    exact dictGet_filter_some hnd h2

theorem align_keys_to_trim {dd dd1 : List (Ticker × Frame)} {opt : AlignOption}
    {cs ce : Option ℤ} (htrim : trimStage dd opt cs ce = some dd1) :
    ∀ t ∈ dictKeys (align_stock_data dd opt cs ce), t ∈ dictKeys dd1 := by
  intro t ht
  rw [align_stock_data, htrim] at ht
  have h2 : t ∈ dictKeys (if (dd1.filter (fun p => !p.2.rows.isEmpty)).isEmpty then []
      else dd1.filter (fun p => !p.2.rows.isEmpty)) := ht
  by_cases he : (dd1.filter (fun p => !p.2.rows.isEmpty)).isEmpty
  · rw [if_pos he] at h2
    exact absurd h2 (by simp [dictKeys])
  · rw [if_neg he] at h2
    exact dictKeys_subset_of_filter t h2

theorem align_lookup_characterization (dd : List (Ticker × Frame))
    (opt : AlignOption) (cs ce : Option ℤ) (hnodup : (dictKeys dd).Nodup) :
    ∀ t f2, dictGet (align_stock_data dd opt cs ce) t = some f2 →
      ∃ f1, dictGet dd t = some f1 ∧
        f2.hasAdjClose = f1.hasAdjClose ∧ f2.hasClose = f1.hasClose ∧
        f2.rows = f1.rows.filter (fun r => policyKeeps dd opt cs ce r.1) := by
  intro t f2 h
  cases htrim : trimStage dd opt cs ce with
  | none =>
    rw [align_stock_data, htrim] at h
    exact absurd h (by simp [dictGet])
  | some dd1 =>
    have hnd1 : (dictKeys dd1).Nodup := by
      rw [trimStage_keys htrim]
      exact hnodup
    have hget1 := align_get_to_trim htrim hnd1 h
    rw [trimStage_get htrim] at hget1
    cases hget : dictGet dd t with
    | none =>
      rw [hget] at hget1
      cases hget1
    | some f1 =>
      rw [hget] at hget1
      have hf : trimFrame f1 (policyKeeps dd opt cs ce) = f2 := Option.some.inj hget1
      refine ⟨f1, rfl, ?_, ?_, ?_⟩
      · rw [← hf]
        rfl
      · rw [← hf]
        rfl
      · rw [← hf]
        rfl

theorem align_keys_subset (dd : List (Ticker × Frame)) (opt : AlignOption)
    (cs ce : Option ℤ) :
    ∀ t ∈ dictKeys (align_stock_data dd opt cs ce), t ∈ dictKeys dd := by
  intro t ht
  cases htrim : trimStage dd opt cs ce with
  | none =>
    rw [align_stock_data, htrim] at ht
    exact absurd ht (by simp [dictKeys])
  | some dd1 =>
    have h1 := align_keys_to_trim htrim t ht
    rw [trimStage_keys htrim] at h1
    exact h1

/-- C10.  Alignment never creates, modifies or reorders observations: every
series that survives `align_stock_data` is exactly the subsequence of the
corresponding input series whose dates satisfy the policy window (so in
particular an order-preserving sublist of the input rows, with the column
flags untouched), and the output ticker set is a subset of the input ticker
set. -/
theorem alignment_frame_property (dd : List (Ticker × Frame))
    (opt : AlignOption) (cs ce : Option ℤ) (hnodup : (dictKeys dd).Nodup) :
    (∀ t ∈ dictKeys (align_stock_data dd opt cs ce), t ∈ dictKeys dd) ∧
    (∀ t f2, dictGet (align_stock_data dd opt cs ce) t = some f2 →
      ∃ f1, dictGet dd t = some f1 ∧
        f2.hasAdjClose = f1.hasAdjClose ∧ f2.hasClose = f1.hasClose ∧
        f2.rows = f1.rows.filter (fun r => policyKeeps dd opt cs ce r.1) ∧
        f2.rows.Sublist f1.rows) := by
  refine ⟨align_keys_subset dd opt cs ce, ?_⟩
  intro t f2 h
  obtain ⟨f1, hget, hadj, hclose, hrows⟩ :=
    align_lookup_characterization dd opt cs ce hnodup t f2 h
  refine ⟨f1, hget, hadj, hclose, hrows, ?_⟩
  rw [hrows]
  exact List.filter_sublist f1.rows

/-- Witness for C10 under the custom-date policy on a two-ticker dataset. -/
theorem alignment_frame_property_witness :
    (∀ t ∈ dictKeys (align_stock_data
        [("A", ⟨true, true, [(0, 1, 1), (5, 2, 2)]⟩), ("B", ⟨true, true, [(3, 1, 1)]⟩)]
        .customDate (some 1) (some 4)), t ∈ dictKeys
        [("A", (⟨true, true, [(0, 1, 1), (5, 2, 2)]⟩ : Frame)), ("B", ⟨true, true, [(3, 1, 1)]⟩)]) ∧
    (∀ t f2, dictGet (align_stock_data
        [("A", ⟨true, true, [(0, 1, 1), (5, 2, 2)]⟩), ("B", ⟨true, true, [(3, 1, 1)]⟩)]
        .customDate (some 1) (some 4)) t = some f2 →
      ∃ f1, dictGet [("A", (⟨true, true, [(0, 1, 1), (5, 2, 2)]⟩ : Frame)),
          ("B", ⟨true, true, [(3, 1, 1)]⟩)] t = some f1 ∧
        f2.hasAdjClose = f1.hasAdjClose ∧ f2.hasClose = f1.hasClose ∧
        f2.rows = f1.rows.filter (fun r => policyKeeps
          [("A", ⟨true, true, [(0, 1, 1), (5, 2, 2)]⟩), ("B", ⟨true, true, [(3, 1, 1)]⟩)]
          .customDate (some 1) (some 4) r.1) ∧
        f2.rows.Sublist f1.rows) :=
  alignment_frame_property _ _ _ _ (by decide)

/-- C2.  Under the earliest-common-date policy the common start is the
maximum over the tickers of each series' minimum date, every surviving series
is exactly its input observations from that date on, and no output series
starts before it. -/
theorem earliest_common_alignment_correct (dd : List (Ticker × Frame)) (c : ℤ)
    (hnodup : (dictKeys dd).Nodup) (hne : dd ≠ [])
    (hrows : ∀ p ∈ dd, p.2.rows ≠ [])
    (hc : commonStartDate dd = some c) :
    (∀ p ∈ dd, ∃ m, minDate p.2 = some m ∧ m ≤ c) ∧
    (∃ p ∈ dd, minDate p.2 = some c) ∧
    (∀ t f2, dictGet (align_stock_data dd .earliestCommon none none) t = some f2 →
      ∃ f1, dictGet dd t = some f1 ∧
        f2.rows = f1.rows.filter (fun r => decide (c ≤ r.1))) ∧
    (∀ t f2, dictGet (align_stock_data dd .earliestCommon none none) t = some f2 →
      ∀ r ∈ f2.rows, c ≤ r.1) := by
  have hchar := align_lookup_characterization dd .earliestCommon none none hnodup
  have hpol : policyKeeps dd .earliestCommon none none = fun d => decide (c ≤ d) := by
    rw [policyKeeps, hc]
  refine ⟨?_, ?_, ?_, ?_⟩
  · intro p hp
    have hne2 : p.2.rows.map (fun r => r.1) ≠ [] := by
      intro hkill
      exact hrows p hp (List.map_eq_nil_iff.1 hkill)
    obtain ⟨m, hm⟩ : ∃ m, minDate p.2 = some m := by
      rw [minDate]
      cases hl : p.2.rows.map (fun r => r.1) with
      | nil => exact absurd hl hne2
      | cons x xs => exact ⟨xs.foldl min x, rfl⟩
    refine ⟨m, hm, ?_⟩
    apply mem_le_listMax hc
    exact List.mem_filterMap.2 ⟨p, hp, hm⟩
  · have hmem := listMax_mem hc
    obtain ⟨p, hp, hm⟩ := List.mem_filterMap.1 hmem
    exact ⟨p, hp, hm⟩
  · intro t f2 h
    obtain ⟨f1, hget, _, _, hr⟩ := hchar t f2 h
    rw [hpol] at hr
    exact ⟨f1, hget, hr⟩
  · intro t f2 h r hr
    obtain ⟨f1, hget, _, _, hreq⟩ := hchar t f2 h
    rw [hreq] at hr
    have hb := (List.mem_filter.1 hr).2
    rw [hpol] at hb
    exact of_decide_eq_true hb

/-- Witness for C2: ticker A starts at day 0, ticker B at day 3; the common
start is day 3. -/
theorem earliest_common_alignment_correct_witness :
    (∀ p ∈ [("A", (⟨true, true, [(0, 1, 1), (5, 2, 2)]⟩ : Frame)),
        ("B", ⟨true, true, [(3, 1, 1)]⟩)], ∃ m, minDate p.2 = some m ∧ m ≤ 3) ∧
    (∃ p ∈ [("A", (⟨true, true, [(0, 1, 1), (5, 2, 2)]⟩ : Frame)),
        ("B", ⟨true, true, [(3, 1, 1)]⟩)], minDate p.2 = some 3) ∧
    (∀ t f2, dictGet (align_stock_data
        [("A", ⟨true, true, [(0, 1, 1), (5, 2, 2)]⟩), ("B", ⟨true, true, [(3, 1, 1)]⟩)]
        .earliestCommon none none) t = some f2 →
      ∃ f1, dictGet [("A", (⟨true, true, [(0, 1, 1), (5, 2, 2)]⟩ : Frame)),
          ("B", ⟨true, true, [(3, 1, 1)]⟩)] t = some f1 ∧
        f2.rows = f1.rows.filter (fun r => decide ((3 : ℤ) ≤ r.1))) ∧
    (∀ t f2, dictGet (align_stock_data
        [("A", ⟨true, true, [(0, 1, 1), (5, 2, 2)]⟩), ("B", ⟨true, true, [(3, 1, 1)]⟩)]
        .earliestCommon none none) t = some f2 →
      ∀ r ∈ f2.rows, (3 : ℤ) ≤ r.1) :=
  earliest_common_alignment_correct _ 3 (by decide) (by decide) (by decide) (by decide)

/-- C3.  When trimming leaves every series empty, `align_stock_data` reports
the alignment error and returns the empty dataset, and the pipeline run halts
before any statistics, correlation or chart computation. -/
theorem alignment_failure_halts_pipeline (dd : List (Ticker × Frame))
    (opt : AlignOption) (cs ce : Option ℤ)
    (hopt : opt = .earliestCommon ∨ opt = .customDate)
    (hempty : ∀ dd1, trimStage dd opt cs ce = some dd1 → ∀ p ∈ dd1, p.2.rows = []) :
    align_stock_data dd opt cs ce = [] ∧ runPipeline dd opt cs ce = .halted := by
  have halign : align_stock_data dd opt cs ce = [] := by
    cases htrim : trimStage dd opt cs ce with
    | none =>
      rw [align_stock_data, htrim]
    | some dd1 =>
      rw [align_stock_data, htrim]
      have hfilter : dd1.filter (fun p => !p.2.rows.isEmpty) = [] := by
        apply List.filter_eq_nil_iff.2
        intro p hp
        rw [hempty dd1 htrim p hp]
        decide
      show (if (dd1.filter (fun p => !p.2.rows.isEmpty)).isEmpty then []
        else dd1.filter (fun p => !p.2.rows.isEmpty)) = []
      rw [hfilter]
      rfl
  refine ⟨halign, ?_⟩
  have haligned : alignedOf dd opt cs ce = [] := by
    rcases hopt with h | h
    · rw [h] at halign ⊢
      exact halign
    · rw [h] at halign ⊢
      exact halign
  rw [runPipeline, haligned]
  rfl

/-- Witness for C3: the spec's scenario of a custom range starting after the
available data ends. -/
theorem alignment_failure_halts_pipeline_witness :
    align_stock_data [("A", ⟨true, true, [(0, 1, 1), (5, 2, 2)]⟩)]
      .customDate (some 10) (some 20) = [] ∧
    runPipeline [("A", ⟨true, true, [(0, 1, 1), (5, 2, 2)]⟩)]
      .customDate (some 10) (some 20) = .halted :=
  alignment_failure_halts_pipeline _ _ _ _ (Or.inr rfl)
    (by
      intro dd1 h p hp
      have h2 : dd1 = [("A", ⟨true, true, []⟩)] := by
        rw [show trimStage [("A", ⟨true, true, [(0, 1, 1), (5, 2, 2)]⟩)]
            .customDate (some 10) (some 20) =
            some [("A", ⟨true, true, []⟩)] from by decide] at h
        exact (Option.some.inj h).symm
      rw [h2] at hp
      rcases List.mem_cons.1 hp with rfl | hbad
      · rfl
      · cases hbad)

end Alignment

section FailureIsolation

theorem rows_eq_nil_of_priceSeries_nil {f : Frame} (h : priceSeries f = some []) :
    f.rows = [] := by
  rw [priceSeries] at h
  split_ifs at h with h1 h2
  · exact List.map_eq_nil_iff.1 (Option.some.inj h)
  · exact List.map_eq_nil_iff.1 (Option.some.inj h)

theorem perTickerStats_ne_crash {f : Frame}
    (h : priceSeries f ≠ none → f.rows ≠ []) : perTickerStats f ≠ .crash := by
  rw [perTickerStats]
  cases hps : priceSeries f with
  | none =>
    intro hk
    cases hk
  | some l =>
    cases l with
    | nil =>
      exact absurd (rows_eq_nil_of_priceSeries_nil hps)
        (h (by rw [hps]; exact fun hk => Option.noConfusion hk))
    | cons a tl =>
      intro hk
      cases hk

theorem statsStage_eq_filterMap (dd : List (Ticker × Frame))
    (hok : ∀ p ∈ dd, priceSeries p.2 ≠ none → p.2.rows ≠ []) :
    statsStage dd = some (dd.filterMap (fun p =>
      match perTickerStats p.2 with
      | .done r cum => some (p.1, r, cum)
      | _ => none)) := by
  induction dd with
  | nil => rfl
  | cons p rest ih =>
    obtain ⟨t, f⟩ := p
    have ihr := ih (fun q hq hpc => hok q (List.mem_cons.2 (Or.inr hq)) hpc)
    have hnc : perTickerStats f ≠ .crash :=
      perTickerStats_ne_crash (hok (t, f) (List.mem_cons.2 (Or.inl rfl)))
    cases hp : perTickerStats f with
    | skipped =>
      rw [statsStage, hp, ihr, List.filterMap_cons, hp]
    | crash => exact absurd hp hnc
    | done r cum =>
      rw [statsStage, hp, ihr, List.filterMap_cons, hp]
      rfl

/-- C1 (amended).  A per-ticker statistics failure is isolated at the
statistics stage — each surviving ticker contributes its own entry computed
from its own frame alone, and the loop never aborts — but the run then
crashes at the ranking step (`KeyError` while computing the sort key on the
empty record), so ranking, correlation and the chart are not produced for any
ticker. -/
theorem stats_failure_isolation_amended (dd : List (Ticker × Frame))
    (opt : AlignOption) (cs ce : Option ℤ)
    (hok : ∀ p ∈ alignedOf dd opt cs ce, priceSeries p.2 ≠ none → p.2.rows ≠ [])
    (hfail : ∃ p ∈ alignedOf dd opt cs ce, ∃ cum,
        perTickerStats p.2 = .done none cum) :
    statsStage (alignedOf dd opt cs ce) =
      some ((alignedOf dd opt cs ce).filterMap (fun p =>
        match perTickerStats p.2 with
        | .done r cum => some (p.1, r, cum)
        | _ => none)) ∧
    runPipeline dd opt cs ce = .crash := by
  have hstats := statsStage_eq_filterMap (alignedOf dd opt cs ce) hok
  refine ⟨hstats, ?_⟩
  obtain ⟨p, hp, cum, hdone⟩ := hfail
  have hne : (alignedOf dd opt cs ce).isEmpty ≠ true := by
    cases halg : alignedOf dd opt cs ce with
    | nil => rw [halg] at hp; cases hp
    | cons q rest => intro hk; cases hk
  have hmem : (p.1, (none : Option StatsRecord), cum) ∈
      (alignedOf dd opt cs ce).filterMap (fun p =>
        match perTickerStats p.2 with
        | .done r cum => some (p.1, r, cum)
        | _ => none) := by
    apply List.mem_filterMap.2
    exact ⟨p, hp, by rw [hdone]⟩
  have hall : ¬(((alignedOf dd opt cs ce).filterMap (fun p =>
      match perTickerStats p.2 with
      | .done r cum => some (p.1, r, cum)
      | _ => none)).map (fun q => (q.1, q.2.1))).all (fun q => q.2.isSome) = true := by
    intro hA
    have := List.all_eq_true.1 hA (p.1, none)
      (List.mem_map.2 ⟨(p.1, none, cum), hmem, rfl⟩)
    cases this
  have hrank : rankTickers (((alignedOf dd opt cs ce).filterMap (fun p =>
      match perTickerStats p.2 with
      | .done r cum => some (p.1, r, cum)
      | _ => none)).map (fun q => (q.1, q.2.1))) = none := by
    rw [rankTickers, if_neg hall]
  rw [runPipeline, if_neg hne, hstats, pipelineAfterStats, hrank, pipelineAfterRank]

/-- Witness for the amended C1: a single ticker whose two-row series yields
only one daily return, hence an empty statistics record, and the run crashes
at ranking. -/
theorem stats_failure_isolation_amended_witness :
    statsStage (alignedOf [("B", ⟨true, true, [(0, 1, 1), (1, 1, 1)]⟩)]
        .allAvailable none none) =
      some ((alignedOf [("B", ⟨true, true, [(0, 1, 1), (1, 1, 1)]⟩)]
          .allAvailable none none).filterMap (fun p =>
        match perTickerStats p.2 with
        | .done r cum => some (p.1, r, cum)
        | _ => none)) ∧
    runPipeline [("B", ⟨true, true, [(0, 1, 1), (1, 1, 1)]⟩)]
      .allAvailable none none = .crash :=
  stats_failure_isolation_amended _ _ _ _ (by decide)
    ⟨("B", ⟨true, true, [(0, 1, 1), (1, 1, 1)]⟩), by decide,
      cumRetSeries [((0 : ℤ), (1 : ℚ)), (1, 1)] 1, by with_unfolding_all rfl⟩

/-- Counterexample to C1 as stated: ticker A is healthy (three rows), ticker
B's statistics come back empty, the error is reported — and then the whole
run aborts with an uncaught `KeyError` at the ranking step instead of
continuing to rank/correlate/chart the remaining tickers. -/
theorem stats_failure_isolation_counterexample :
    runPipeline [("A", ⟨true, true, [(0, 1, 1), (1, 1, 1), (2, 1, 1)]⟩),
        ("B", ⟨true, true, [(0, 1, 1), (1, 1, 1)]⟩)]
      .allAvailable none none = .crash := by
  with_unfolding_all rfl

end FailureIsolation

section TickerNormalization

variable {κ β : Type} [DecidableEq κ]

theorem mem_dictKeys_iff {l : List (κ × β)} {t : κ} :
    t ∈ dictKeys l ↔ ∃ w, (t, w) ∈ l := by
  rw [dictKeys]
  constructor
  · intro h
    obtain ⟨p, hp, hk⟩ := List.mem_map.1 h
    exact ⟨p.2, by rw [← hk]; exact hp⟩
  · rintro ⟨w, hw⟩
    exact List.mem_map.2 ⟨(t, w), hw, rfl⟩

theorem any_key_iff {l : List (κ × β)} {k : κ} :
    l.any (fun p => decide (p.1 = k)) = true ↔ k ∈ dictKeys l := by
  rw [List.any_eq_true, dictKeys]
  constructor
  · rintro ⟨p, hp, hk⟩
    exact List.mem_map.2 ⟨p, hp, of_decide_eq_true hk⟩
  · intro h
    obtain ⟨p, hp, hk⟩ := List.mem_map.1 h
    exact ⟨p, hp, decide_eq_true hk⟩

theorem dictGet_cons (p : κ × β) (l : List (κ × β)) (t : κ) :
    dictGet (p :: l) t = if p.1 = t then some p.2 else dictGet l t := by
  by_cases h : p.1 = t
  · simp [dictGet, List.find?, h]
  · simp [dictGet, List.find?, h]

theorem dictGet_eq_none_of_not_mem {l : List (κ × β)} {t : κ}
    (h : t ∉ dictKeys l) : dictGet l t = none := by
  have hf : l.find? (fun p => decide (p.1 = t)) = none := by
    rw [List.find?_eq_none]
    intro p hp hk
    exact h (List.mem_map.2 ⟨p, hp, of_decide_eq_true hk⟩)
  rw [dictGet, hf]
  rfl

theorem dictKeys_overwrite (l : List (κ × β)) (k : κ) (v : β) :
    dictKeys (l.map (fun p => if p.1 = k then (k, v) else p)) = dictKeys l := by
  rw [dictKeys, dictKeys, List.map_map]
  apply List.map_congr_left
  intro p _
  by_cases hpk : p.1 = k
  · show (if p.1 = k then (k, v) else p).1 = p.1
    rw [if_pos hpk]
    exact hpk.symm
  · show (if p.1 = k then (k, v) else p).1 = p.1
    rw [if_neg hpk]

theorem dictGet_overwrite_self {l : List (κ × β)} {k : κ} (v : β)
    (ha : l.any (fun p => decide (p.1 = k)) = true) :
    dictGet (l.map (fun p => if p.1 = k then (k, v) else p)) k = some v := by
  induction l with
  | nil => cases ha
  | cons p rest ih =>
    rw [List.map_cons, dictGet_cons]
    by_cases hp : p.1 = k
    · rw [if_pos hp]
      rw [if_pos (show ((k, v) : κ × β).1 = k from rfl)]
    · have ha' : rest.any (fun p => decide (p.1 = k)) = true := by
        rcases List.any_eq_true.1 ha with ⟨q, hq, hk⟩
        rcases List.mem_cons.1 hq with rfl | hq'
        · exact absurd (of_decide_eq_true hk) hp
        · exact List.any_eq_true.2 ⟨q, hq', hk⟩
      rw [if_neg hp, if_neg hp]
      exact ih ha'

theorem dictGet_overwrite_ne {l : List (κ × β)} {k t : κ} (v : β)
    (hne : t ≠ k) :
    dictGet (l.map (fun p => if p.1 = k then (k, v) else p)) t = dictGet l t := by
  induction l with
  | nil => rfl
  | cons p rest ih =>
    rw [List.map_cons, dictGet_cons, dictGet_cons]
    by_cases hp : p.1 = k
    · rw [if_pos hp]
      have h1 : ¬(((k, v) : κ × β).1 = t) := fun h => hne h.symm
      have h2 : ¬(p.1 = t) := by
        rw [hp]
        exact fun h => hne h.symm
      rw [if_neg h1, if_neg h2]
      exact ih
    · rw [if_neg hp]
      by_cases hpt : p.1 = t
      · rw [if_pos hpt, if_pos hpt]
      · rw [if_neg hpt, if_neg hpt]
        exact ih

theorem dictGet_append_single_self (l : List (κ × β)) (k : κ) (v : β)
    (ha : ¬l.any (fun p => decide (p.1 = k)) = true) :
    dictGet (l ++ [(k, v)]) k = some v := by
  induction l with
  | nil =>
    rw [List.nil_append, dictGet_cons]
    rw [if_pos (show ((k, v) : κ × β).1 = k from rfl)]
  | cons p rest ih =>
    have hp : ¬(p.1 = k) := by
      intro h
      exact ha (List.any_eq_true.2 ⟨p, List.mem_cons.2 (Or.inl rfl), decide_eq_true h⟩)
    have ha' : ¬rest.any (fun p => decide (p.1 = k)) = true := by
      intro h
      rcases List.any_eq_true.1 h with ⟨q, hq, hk⟩
      exact ha (List.any_eq_true.2 ⟨q, List.mem_cons.2 (Or.inr hq), hk⟩)
    rw [List.cons_append, dictGet_cons, if_neg hp]
    exact ih ha'

theorem dictGet_append_single_ne (l : List (κ × β)) (k t : κ) (v : β)
    (hne : t ≠ k) : dictGet (l ++ [(k, v)]) t = dictGet l t := by
  induction l with
  | nil =>
    rw [List.nil_append, dictGet_cons]
    rw [if_neg (show ¬(((k, v) : κ × β).1 = t) from fun h => hne h.symm)]
  | cons p rest ih =>
    rw [List.cons_append, dictGet_cons, dictGet_cons]
    by_cases hpt : p.1 = t
    · rw [if_pos hpt, if_pos hpt]
    · rw [if_neg hpt, if_neg hpt]
      exact ih

theorem dictKeys_dictInsert_mem (l : List (κ × β)) (k : κ) (v : β) (t : κ) :
    t ∈ dictKeys (dictInsert l k v) ↔ t ∈ dictKeys l ∨ t = k := by
  rw [dictInsert]
  by_cases ha : l.any (fun p => decide (p.1 = k)) = true
  · rw [if_pos ha, dictKeys_overwrite]
    constructor
    · exact Or.inl
    · rintro (h | rfl)
      · exact h
      · exact any_key_iff.1 ha
  · rw [if_neg ha, dictKeys, List.map_append]
    rw [List.mem_append]
    rw [show dictKeys l = l.map (fun p => p.1) from rfl]
    simp

theorem dictKeys_dictInsert_nodup (l : List (κ × β)) (k : κ) (v : β)
    (h : (dictKeys l).Nodup) : (dictKeys (dictInsert l k v)).Nodup := by
  rw [dictInsert]
  by_cases ha : l.any (fun p => decide (p.1 = k)) = true
  · rw [if_pos ha, dictKeys_overwrite]
    exact h
  · rw [if_neg ha, dictKeys, List.map_append]
    rw [List.nodup_append]
    refine ⟨h, List.nodup_singleton k, ?_⟩
    intro x hx hk
    simp only [List.map_cons, List.map_nil, List.mem_singleton] at hk
    rw [hk] at hx
    exact ha (any_key_iff.2 hx)

theorem dictGet_dictInsert_self (l : List (κ × β)) (k : κ) (v : β) :
    dictGet (dictInsert l k v) k = some v := by
  rw [dictInsert]
  by_cases ha : l.any (fun p => decide (p.1 = k)) = true
  · rw [if_pos ha]
    exact dictGet_overwrite_self v ha
  · rw [if_neg ha]
    exact dictGet_append_single_self l k v ha

theorem dictGet_dictInsert_ne (l : List (κ × β)) (k t : κ) (v : β)
    (hne : t ≠ k) : dictGet (dictInsert l k v) t = dictGet l t := by
  rw [dictInsert]
  by_cases ha : l.any (fun p => decide (p.1 = k)) = true
  · rw [if_pos ha]
    exact dictGet_overwrite_ne v hne
  · rw [if_neg ha]
    exact dictGet_append_single_ne l k t v hne

theorem fetch_fold_props (raw : κ → Frame) :
    ∀ (tickers : List κ) (d : List (κ × Frame)), (dictKeys d).Nodup →
      (dictKeys (tickers.foldl (fun acc u => dictInsert acc u (raw u)) d)).Nodup ∧
      (∀ t, t ∈ dictKeys (tickers.foldl (fun acc u => dictInsert acc u (raw u)) d) ↔
        t ∈ dictKeys d ∨ t ∈ tickers) ∧
      (∀ t, dictGet (tickers.foldl (fun acc u => dictInsert acc u (raw u)) d) t =
        if t ∈ tickers then some (raw t) else dictGet d t) := by
  intro tickers
  induction tickers with
  | nil =>
    intro d hd
    refine ⟨hd, fun t => by simp, fun t => by simp⟩
  | cons u rest ih =>
    intro d hd
    have hd1 : (dictKeys (dictInsert d u (raw u))).Nodup :=
      dictKeys_dictInsert_nodup d u (raw u) hd
    obtain ⟨ihn, ihm, ihg⟩ := ih (dictInsert d u (raw u)) hd1
    rw [List.foldl_cons]
    refine ⟨ihn, ?_, ?_⟩
    · intro t
      rw [ihm t, dictKeys_dictInsert_mem]
      constructor
      · rintro ((h | rfl) | h)
        · exact Or.inl h
        · exact Or.inr (List.mem_cons.2 (Or.inl rfl))
        · exact Or.inr (List.mem_cons.2 (Or.inr h))
      · rintro (h | h)
        · exact Or.inl (Or.inl h)
        · rcases List.mem_cons.1 h with rfl | h'
          · exact Or.inl (Or.inr rfl)
          · exact Or.inr h'
    · intro t
      rw [ihg t]
      by_cases hr : t ∈ rest
      · rw [if_pos hr, if_pos (List.mem_cons.2 (Or.inr hr))]
      · rw [if_neg hr]
        by_cases hu : t = u
        · rw [hu, if_pos (List.mem_cons.2 (Or.inl rfl))]
          exact dictGet_dictInsert_self d u (raw u)
        · have : ¬t ∈ u :: rest := by
            intro h
            rcases List.mem_cons.1 h with h' | h'
            · exact hu h'
            · exact hr h'
          rw [if_neg this]
          exact dictGet_dictInsert_ne d u t (raw u) hu

/-- C9 (amended).  The ticker list handed to the acquisition collaborator is
trimmed, uppercased and stripped of empty entries but NOT deduplicated; the
dict comprehension that builds the dataset collapses duplicate symbols, so the
resulting TickerDataset still maps each unique normalized symbol to exactly
one series (namely the raw table the collaborator delivers for it). -/
theorem ticker_normalization_amended (s : List Char) (raw : List Char → Frame) :
    (∀ t ∈ parseTickers s, ∃ u ∈ pySplitComma s,
        pyStrip u ≠ [] ∧ t = pyUpper (pyStrip u)) ∧
    (dictKeys (fetchDataset (parseTickers s) raw)).Nodup ∧
    (∀ t, t ∈ dictKeys (fetchDataset (parseTickers s) raw) ↔ t ∈ parseTickers s) ∧
    (∀ t ∈ parseTickers s, dictGet (fetchDataset (parseTickers s) raw) t = some (raw t)) := by
  obtain ⟨hn, hm, hg⟩ := fetch_fold_props raw (parseTickers s) [] (by simp [dictKeys])
  refine ⟨?_, hn, ?_, ?_⟩
  · intro t ht
    rw [parseTickers] at ht
    obtain ⟨u, hu, hdef⟩ := List.mem_filterMap.1 ht
    by_cases hstrip : pyStrip u = []
    · rw [if_pos hstrip] at hdef
      cases hdef
    · rw [if_neg hstrip] at hdef
      exact ⟨u, hu, hstrip, (Option.some.inj hdef).symm⟩
  · intro t
    rw [fetchDataset, hm t]
    simp [dictKeys]
  · intro t ht
    rw [fetchDataset, hg t, if_pos ht]

/-- Witness for the amended C9 on the input string `"AAPL, aapl"`. -/
theorem ticker_normalization_amended_witness :
    (∀ t ∈ parseTickers "AAPL, aapl".data, ∃ u ∈ pySplitComma "AAPL, aapl".data,
        pyStrip u ≠ [] ∧ t = pyUpper (pyStrip u)) ∧
    (dictKeys (fetchDataset (parseTickers "AAPL, aapl".data)
        (fun _ => ⟨true, true, []⟩))).Nodup ∧
    (∀ t, t ∈ dictKeys (fetchDataset (parseTickers "AAPL, aapl".data)
        (fun _ => ⟨true, true, []⟩)) ↔ t ∈ parseTickers "AAPL, aapl".data) ∧
    (∀ t ∈ parseTickers "AAPL, aapl".data,
      dictGet (fetchDataset (parseTickers "AAPL, aapl".data)
        (fun _ => ⟨true, true, []⟩)) t = some (⟨true, true, []⟩ : Frame)) :=
  ticker_normalization_amended "AAPL, aapl".data (fun _ => ⟨true, true, []⟩)

/-- Counterexample to C9 as stated: the list handed to the fetcher for the
input `"AAPL, aapl"` is `["AAPL", "AAPL"]` — trimmed and uppercased but not
deduplicated. -/
theorem ticker_dedup_counterexample :
    parseTickers "AAPL, aapl".data = ["AAPL".data, "AAPL".data] ∧
      ¬(parseTickers "AAPL, aapl".data).Nodup := by
  constructor
  · decide
  · decide

end TickerNormalization

section CorrelationCoverage

/-- C4 (amended).  The correlation engine collects return series only from
tickers whose frame carries an `'Adj Close'` column — there is no `'Close'`
fallback in `calculate_correlation_table`, unlike the statistics loop.  When
every ranked ticker exposes `'Adj Close'`, the reorder succeeds and every
ranked ticker appears on both axes of the matrix; as soon as one ranked
ticker lacks it, the `.loc` reorder raises `KeyError` and no matrix is
produced. -/
theorem correlation_coverage_amended (dd : List (Ticker × Frame))
    (sorted : List Ticker) :
    ((∀ t ∈ sorted, (dictGet (dd.filter (fun p => p.2.hasAdjClose)) t).isSome) →
      ∃ M, calculate_correlation_table dd sorted = some M ∧
        M.rowTickers = sorted ∧ M.colTickers = sorted) ∧
    ((∃ t ∈ sorted, dictGet (dd.filter (fun p => p.2.hasAdjClose)) t = none) →
      calculate_correlation_table dd sorted = none) := by
  constructor
  · intro h
    rw [calculate_correlation_table]
    rw [if_pos (List.all_eq_true.2 (fun t ht => h t ht))]
    exact ⟨_, rfl, rfl, rfl⟩
  · rintro ⟨t, ht, hnone⟩
    rw [calculate_correlation_table]
    apply if_neg
    intro hall
    have := List.all_eq_true.1 hall t ht
    rw [hnone] at this
    cases this

/-- Witness for the amended C4 with a single ticker exposing `'Adj Close'`. -/
theorem correlation_coverage_amended_witness :
    ((∀ t ∈ ["A"], (dictGet ([("A", (⟨true, true, [(0, 1, 1), (1, 2, 2), (2, 4, 4)]⟩ : Frame))].filter
        (fun p => p.2.hasAdjClose)) t).isSome) →
      ∃ M, calculate_correlation_table
          [("A", ⟨true, true, [(0, 1, 1), (1, 2, 2), (2, 4, 4)]⟩)] ["A"] = some M ∧
        M.rowTickers = ["A"] ∧ M.colTickers = ["A"]) ∧
    ((∃ t ∈ ["A"], dictGet ([("A", (⟨true, true, [(0, 1, 1), (1, 2, 2), (2, 4, 4)]⟩ : Frame))].filter
        (fun p => p.2.hasAdjClose)) t = none) →
      calculate_correlation_table
        [("A", ⟨true, true, [(0, 1, 1), (1, 2, 2), (2, 4, 4)]⟩)] ["A"] = none) :=
  correlation_coverage_amended [("A", ⟨true, true, [(0, 1, 1), (1, 2, 2), (2, 4, 4)]⟩)] ["A"]

/-- Counterexample to C4 as stated: ticker B exposes the recognized fallback
price field `'Close'` (so it is ranked by the statistics loop), yet the
correlation step produces no matrix at all — `'Close'` is not consulted by
`calculate_correlation_table` and the reorder fails with `KeyError`, so B does
not appear on the axes. -/
theorem correlation_coverage_counterexample :
    priceSeries (⟨false, true, [(0, 1, 1), (1, 2, 2), (2, 4, 4)]⟩ : Frame) ≠ none ∧
    calculate_correlation_table
      [("A", ⟨true, true, [(0, 1, 1), (1, 2, 2), (2, 4, 4)]⟩),
       ("B", ⟨false, true, [(0, 1, 1), (1, 2, 2), (2, 4, 4)]⟩)]
      ["A", "B"] = none := by
  constructor
  · intro h
    cases h
  · with_unfolding_all rfl

end CorrelationCoverage

section CorrelationMatrix

theorem list_sum_map_add {α : Type} (l : List α) (f g : α → ℚ) :
    (l.map (fun x => f x + g x)).sum = (l.map f).sum + (l.map g).sum := by
  induction l with
  | nil => simp
  | cons a t ih =>
    simp only [List.map_cons, List.sum_cons, ih]
    ring

theorem list_sum_map_mul_left {α : Type} (l : List α) (c : ℚ) (f : α → ℚ) :
    (l.map (fun x => c * f x)).sum = c * (l.map f).sum := by
  induction l with
  | nil => simp
  | cons a t ih =>
    simp only [List.map_cons, List.sum_cons, ih]
    ring

theorem sq_sum_eq_zero {α : Type} {l : List α} {f : α → ℚ}
    (h : (l.map (fun x => f x ^ 2)).sum = 0) : ∀ x ∈ l, f x = 0 := by
  induction l with
  | nil => intro x hx; cases hx
  | cons a t ih =>
    rw [List.map_cons, List.sum_cons] at h
    have h1 : (0 : ℚ) ≤ f a ^ 2 := sq_nonneg _
    have h2 : (0 : ℚ) ≤ (t.map (fun x => f x ^ 2)).sum :=
      List.sum_nonneg (fun x hx => by
        obtain ⟨r, _, rfl⟩ := List.mem_map.1 hx
        exact sq_nonneg _)
    have ha : f a ^ 2 = 0 := by linarith
    intro x hx
    rcases List.mem_cons.1 hx with rfl | hx'
    · exact sq_eq_zero_iff.1 ha
    · exact ih (by linarith) x hx'

theorem sxx_nonneg (l : List (ℤ × ℚ × ℚ)) : 0 ≤ sxx l :=
  List.sum_nonneg (fun x hx => by
    obtain ⟨r, _, rfl⟩ := List.mem_map.1 hx
    exact sq_nonneg _)

theorem syy_nonneg (l : List (ℤ × ℚ × ℚ)) : 0 ≤ syy l :=
  List.sum_nonneg (fun x hx => by
    obtain ⟨r, _, rfl⟩ := List.mem_map.1 hx
    exact sq_nonneg _)

theorem corr_expand (l : List (ℤ × ℚ × ℚ)) (t : ℚ) :
    (l.map (fun r => ((r.2.1 - meanX l) - t * (r.2.2 - meanY l)) ^ 2)).sum =
      sxx l - 2 * t * sxy l + t ^ 2 * syy l := by
  have hpt : ∀ r ∈ l, ((r.2.1 - meanX l) - t * (r.2.2 - meanY l)) ^ 2 =
      (r.2.1 - meanX l) ^ 2 +
        ((-(2 * t)) * ((r.2.1 - meanX l) * (r.2.2 - meanY l)) +
          t ^ 2 * (r.2.2 - meanY l) ^ 2) := fun r _ => by ring
  rw [List.map_congr_left hpt, list_sum_map_add, list_sum_map_add,
    list_sum_map_mul_left, list_sum_map_mul_left, sxx, sxy, syy]
  ring

theorem corr_cauchy_schwarz (l : List (ℤ × ℚ × ℚ)) : sxy l ^ 2 ≤ sxx l * syy l := by
  have hnn : ∀ t : ℚ, 0 ≤ sxx l - 2 * t * sxy l + t ^ 2 * syy l := by
    intro t
    rw [← corr_expand l t]
    exact List.sum_nonneg (fun x hx => by
      obtain ⟨r, _, rfl⟩ := List.mem_map.1 hx
      exact sq_nonneg _)
  by_cases hs : syy l = 0
  · have hb : ∀ r ∈ l, r.2.2 - meanY l = 0 := by
      have hs' : (l.map (fun r => (r.2.2 - meanY l) ^ 2)).sum = 0 := hs
      exact sq_sum_eq_zero hs'
    have hxy : sxy l = 0 := by
      rw [sxy]
      apply List.sum_eq_zero
      intro x hx
      obtain ⟨r, hr, rfl⟩ := List.mem_map.1 hx
      rw [hb r hr, mul_zero]
    rw [hxy, hs, mul_zero]
    norm_num
  · have hpos : 0 < syy l := lt_of_le_of_ne (syy_nonneg l) (Ne.symm hs)
    have h := hnn (sxy l / syy l)
    have hc : sxx l - 2 * (sxy l / syy l) * sxy l + (sxy l / syy l) ^ 2 * syy l =
        sxx l - sxy l ^ 2 / syy l := by
      field_simp
      ring
    rw [hc] at h
    have h2 : sxy l ^ 2 / syy l ≤ sxx l := by linarith
    calc sxy l ^ 2 = sxy l ^ 2 / syy l * syy l := by field_simp
    _ ≤ sxx l * syy l := mul_le_mul_of_nonneg_right h2 (le_of_lt hpos)

theorem round_mono_le {a b : ℝ} (hab : a ≤ b) : round a ≤ round b := by
  rw [round_eq, round_eq]
  exact Int.floor_le_floor (by linarith)

theorem round4_one : round4 1 = 1 := by
  have h1 : (1 : ℝ) * 10000 = ((10000 : ℤ) : ℝ) := by norm_num
  rw [round4, h1, round_intCast]
  norm_num

theorem abs_round4_le_one {x : ℝ} (h : |x| ≤ 1) : |round4 x| ≤ 1 := by
  obtain ⟨hlo, hhi⟩ := abs_le.1 h
  have hup : round (x * 10000) ≤ 10000 := by
    have := round_mono_le (show x * 10000 ≤ ((10000 : ℤ) : ℝ) by push_cast; nlinarith)
    rw [round_intCast] at this
    exact this
  have hdn : -10000 ≤ round (x * 10000) := by
    have := round_mono_le (show ((-10000 : ℤ) : ℝ) ≤ x * 10000 by push_cast; nlinarith)
    rw [round_intCast] at this
    exact this
  rw [round4, abs_div]
  rw [abs_of_pos (show (0 : ℝ) < 10000 by norm_num)]
  rw [div_le_one (show (0 : ℝ) < 10000 by norm_num)]
  rw [abs_le]
  constructor
  · exact_mod_cast hdn
  · exact_mod_cast hup

theorem seriesGet_eq_dictGet (s : List (ℤ × ℚ)) (d : ℤ) :
    seriesGet s d = dictGet s d := rfl

theorem seriesGet_some_iff {s : List (ℤ × ℚ)}
    (hnd : (s.map (fun r => r.1)).Nodup) {d : ℤ} {y : ℚ} :
    seriesGet s d = some y ↔ (d, y) ∈ s := by
  rw [seriesGet_eq_dictGet]
  constructor
  · exact mem_of_dictGet
  · intro hm
    exact dictGet_of_mem hm hnd

theorem overlap_mem_iff {s1 s2 : List (ℤ × ℚ)} {d : ℤ} {x y : ℚ} :
    (d, x, y) ∈ overlapPairs s1 s2 ↔ (d, x) ∈ s1 ∧ seriesGet s2 d = some y := by
  rw [overlapPairs, List.mem_filterMap]
  constructor
  · rintro ⟨r, hr, hmap⟩
    cases hsg : seriesGet s2 r.1 with
    | none =>
      rw [hsg] at hmap
      cases hmap
    | some z =>
      rw [hsg] at hmap
      have h3 := Option.some.inj hmap
      have hd : r.1 = d := congrArg (fun w => w.1) h3
      have hx : r.2 = x := congrArg (fun w => w.2.1) h3
      have hy : z = y := congrArg (fun w => w.2.2) h3
      constructor
      · have : r = (d, x) := by
          cases r
          simp only at hd hx
          rw [hd, hx]
        rw [← this]
        exact hr
      · rw [← hd, hsg, hy]
  · rintro ⟨h1, hsg⟩
    refine ⟨(d, x), h1, ?_⟩
    rw [hsg]
    rfl

theorem overlap_keys_sub {s1 s2 : List (ℤ × ℚ)} :
    ∀ z ∈ overlapPairs s1 s2, z.1 ∈ s1.map (fun r => r.1) := by
  intro z hz
  obtain ⟨r, hr, hmap⟩ := List.mem_filterMap.1 hz
  cases hsg : seriesGet s2 r.1 with
  | none =>
    rw [hsg] at hmap
    cases hmap
  | some w =>
    rw [hsg] at hmap
    have h3 := Option.some.inj hmap
    have hd : r.1 = z.1 := congrArg (fun w => w.1) h3
    rw [← hd]
    exact List.mem_map.2 ⟨r, hr, rfl⟩

theorem overlap_keys_pairwise {s1 : List (ℤ × ℚ)} (s2 : List (ℤ × ℚ))
    (h1 : (s1.map (fun r => r.1)).Pairwise (· < ·)) :
    ((overlapPairs s1 s2).map (fun z => z.1)).Pairwise (· < ·) := by
  induction s1 with
  | nil => simp [overlapPairs]
  | cons r t ih =>
    rw [List.map_cons, List.pairwise_cons] at h1
    rw [overlapPairs, List.filterMap_cons]
    cases hsg : seriesGet s2 r.1 with
    | none => exact ih h1.2
    | some y =>
      show ((((r.1, r.2, y) : ℤ × ℚ × ℚ) :: overlapPairs t s2).map
        (fun z => z.1)).Pairwise (· < ·)
      rw [List.map_cons, List.pairwise_cons]
      refine ⟨?_, ih h1.2⟩
      intro k hk
      obtain ⟨z, hz, rfl⟩ := List.mem_map.1 hk
      exact h1.1 z.1 (overlap_keys_sub z hz)

theorem keylt_nodup {l : List (ℤ × ℚ × ℚ)}
    (hl : (l.map (fun z => z.1)).Pairwise (· < ·)) : l.Nodup := by
  have h2 := List.pairwise_map.1 hl
  exact h2.imp (fun {a b} h => fun he => absurd (he ▸ h) (lt_irrefl _))

theorem overlap_swap {s1 s2 : List (ℤ × ℚ)}
    (h1 : (s1.map (fun r => r.1)).Pairwise (· < ·))
    (h2 : (s2.map (fun r => r.1)).Pairwise (· < ·)) :
    overlapPairs s2 s1 =
      (overlapPairs s1 s2).map (fun z => (z.1, z.2.2, z.2.1)) := by
  have hnd1 : (s1.map (fun r => r.1)).Nodup :=
    h1.imp (fun {a b} h => ne_of_lt h)
  have hnd2 : (s2.map (fun r => r.1)).Nodup :=
    h2.imp (fun {a b} h => ne_of_lt h)
  have hp21 := overlap_keys_pairwise s1 h2
  have hp12 := overlap_keys_pairwise s2 h1
  have hpmap : (((overlapPairs s1 s2).map (fun z => (z.1, z.2.2, z.2.1))).map
      (fun z => z.1)).Pairwise (· < ·) := by
    rw [List.map_map]
    exact hp12
  have hmem : ∀ z, z ∈ overlapPairs s2 s1 ↔
      z ∈ (overlapPairs s1 s2).map (fun z => (z.1, z.2.2, z.2.1)) := by
    intro z
    obtain ⟨d, y, x⟩ := z
    rw [overlap_mem_iff]
    constructor
    · rintro ⟨hm2, hg1⟩
      refine List.mem_map.2 ⟨(d, x, y), ?_, rfl⟩
      rw [overlap_mem_iff]
      exact ⟨(seriesGet_some_iff hnd1).1 hg1, (seriesGet_some_iff hnd2).2 hm2⟩
    · intro hm
      obtain ⟨w, hw, hweq⟩ := List.mem_map.1 hm
      have hd : w.1 = d := congrArg (fun u => u.1) hweq
      have hy : w.2.2 = y := congrArg (fun u => u.2.1) hweq
      have hx : w.2.1 = x := congrArg (fun u => u.2.2) hweq
      have hw' : (d, w.2.1, w.2.2) ∈ overlapPairs s1 s2 := by
        rw [← hd]
        exact hw
      obtain ⟨hm1, hg2⟩ := overlap_mem_iff.1 hw'
      constructor
      · rw [← hy]
        exact (seriesGet_some_iff hnd2).1 hg2
      · rw [← hx]
        exact (seriesGet_some_iff hnd1).2 hm1
  have hperm := (List.perm_ext_iff_of_nodup (keylt_nodup hp21) (keylt_nodup hpmap)).2 hmem
  haveI : IsAntisymm (ℤ × ℚ × ℚ) (fun a b => a.1 < b.1) :=
    ⟨fun a b ha hb => absurd (lt_trans ha hb) (lt_irrefl _)⟩
  exact List.eq_of_perm_of_sorted hperm (List.pairwise_map.1 hp21) (List.pairwise_map.1 hpmap)

theorem meanX_swap (l : List (ℤ × ℚ × ℚ)) :
    meanX (l.map (fun z => (z.1, z.2.2, z.2.1))) = meanY l := by
  rw [meanX, meanY, List.map_map]
  rfl

theorem meanY_swap (l : List (ℤ × ℚ × ℚ)) :
    meanY (l.map (fun z => (z.1, z.2.2, z.2.1))) = meanX l := by
  rw [meanY, meanX, List.map_map]
  rfl

theorem sxx_swap (l : List (ℤ × ℚ × ℚ)) :
    sxx (l.map (fun z => (z.1, z.2.2, z.2.1))) = syy l := by
  rw [sxx, syy, meanX_swap, List.map_map]
  rfl

theorem syy_swap (l : List (ℤ × ℚ × ℚ)) :
    syy (l.map (fun z => (z.1, z.2.2, z.2.1))) = sxx l := by
  rw [syy, sxx, meanY_swap, List.map_map]
  rfl

theorem sxy_swap (l : List (ℤ × ℚ × ℚ)) :
    sxy (l.map (fun z => (z.1, z.2.2, z.2.1))) = sxy l := by
  rw [sxy, sxy, meanX_swap, meanY_swap, List.map_map]
  apply congrArg List.sum
  apply List.map_congr_left
  intro z _
  simp only [Function.comp_apply]
  ring

theorem corrEntry_symm {s1 s2 : List (ℤ × ℚ)}
    (h1 : (s1.map (fun r => r.1)).Pairwise (· < ·))
    (h2 : (s2.map (fun r => r.1)).Pairwise (· < ·)) :
    corrEntry s1 s2 = corrEntry s2 s1 := by
  rw [corrEntry, corrEntry, overlap_swap h1 h2, sxx_swap, syy_swap, sxy_swap]
  by_cases h : sxx (overlapPairs s1 s2) = 0 ∨ syy (overlapPairs s1 s2) = 0
  · rw [if_pos h, if_pos (Or.symm h)]
  · rw [if_neg h, if_neg (fun hc => h (Or.symm hc))]
    rw [mul_comm ((syy (overlapPairs s1 s2) : ℝ)) ((sxx (overlapPairs s1 s2) : ℝ))]

theorem overlap_self {s : List (ℤ × ℚ)} (hnd : (s.map (fun r => r.1)).Nodup) :
    overlapPairs s s = s.map (fun r => (r.1, r.2, r.2)) := by
  have hstep : ∀ (u : List (ℤ × ℚ)), (∀ q ∈ u, q ∈ s) →
      (u.map (fun r => r.1)).Nodup →
      u.filterMap (fun r => (seriesGet s r.1).map (fun y => (r.1, r.2, y))) =
        u.map (fun r => (r.1, r.2, r.2)) := by
    intro u hsub hu
    induction u with
    | nil => rfl
    | cons q v ih =>
      rw [List.filterMap_cons, List.map_cons]
      have hq : seriesGet s q.1 = some q.2 :=
        (seriesGet_some_iff hnd).2 (by
          have := hsub q (List.mem_cons.2 (Or.inl rfl))
          cases q
          exact this)
      rw [hq]
      show (((q.1, q.2, q.2) : ℤ × ℚ × ℚ) ::
        v.filterMap (fun r => (seriesGet s r.1).map (fun y => (r.1, r.2, y)))) =
        ((q.1, q.2, q.2) : ℤ × ℚ × ℚ) :: v.map (fun r => (r.1, r.2, r.2))
      rw [List.map_cons, List.nodup_cons] at hu
      rw [ih (fun p hp => hsub p (List.mem_cons.2 (Or.inr hp))) hu.2]
  exact hstep s (fun q hq => hq) hnd

theorem meanY_dup (s : List (ℤ × ℚ)) :
    meanY (s.map (fun r => (r.1, r.2, r.2))) = meanX (s.map (fun r => (r.1, r.2, r.2))) := by
  rw [meanX, meanY, List.map_map, List.map_map]
  rfl

theorem syy_dup (s : List (ℤ × ℚ)) :
    syy (s.map (fun r => (r.1, r.2, r.2))) = sxx (s.map (fun r => (r.1, r.2, r.2))) := by
  rw [syy, sxx, meanY_dup, List.map_map, List.map_map]
  rfl

theorem sxy_dup (s : List (ℤ × ℚ)) :
    sxy (s.map (fun r => (r.1, r.2, r.2))) = sxx (s.map (fun r => (r.1, r.2, r.2))) := by
  rw [sxy, sxx, meanY_dup, List.map_map, List.map_map]
  apply congrArg List.sum
  apply List.map_congr_left
  intro z _
  simp only [Function.comp_apply]
  ring

theorem corrEntry_self {s : List (ℤ × ℚ)} (hnd : (s.map (fun r => r.1)).Nodup)
    (hvar : sxx (overlapPairs s s) ≠ 0) : corrEntry s s = some 1 := by
  have hyy : syy (overlapPairs s s) = sxx (overlapPairs s s) := by
    rw [overlap_self hnd, syy_dup]
  have hxy : sxy (overlapPairs s s) = sxx (overlapPairs s s) := by
    rw [overlap_self hnd, sxy_dup]
  rw [corrEntry, if_neg (by
    rw [hyy]
    exact fun h => hvar (h.elim id id))]
  have hpos : 0 < sxx (overlapPairs s s) :=
    lt_of_le_of_ne (sxx_nonneg _) (Ne.symm hvar)
  have hposR : (0 : ℝ) < (sxx (overlapPairs s s) : ℝ) := by exact_mod_cast hpos
  rw [hxy, hyy, Real.sqrt_mul_self (le_of_lt hposR)]
  rw [div_self (ne_of_gt hposR)]

theorem corrEntry_bounds {s1 s2 : List (ℤ × ℚ)} {r : ℝ}
    (h : corrEntry s1 s2 = some r) : -1 ≤ r ∧ r ≤ 1 := by
  rw [corrEntry] at h
  by_cases hz : sxx (overlapPairs s1 s2) = 0 ∨ syy (overlapPairs s1 s2) = 0
  · rw [if_pos hz] at h
    cases h
  · rw [if_neg hz] at h
    have hx0 : sxx (overlapPairs s1 s2) ≠ 0 := fun hc => hz (Or.inl hc)
    have hy0 : syy (overlapPairs s1 s2) ≠ 0 := fun hc => hz (Or.inr hc)
    have hxpos : 0 < sxx (overlapPairs s1 s2) :=
      lt_of_le_of_ne (sxx_nonneg _) (Ne.symm hx0)
    have hypos : 0 < syy (overlapPairs s1 s2) :=
      lt_of_le_of_ne (syy_nonneg _) (Ne.symm hy0)
    have hD : (0 : ℝ) < (sxx (overlapPairs s1 s2) : ℝ) * (syy (overlapPairs s1 s2) : ℝ) := by
      have : (0 : ℚ) < sxx (overlapPairs s1 s2) * syy (overlapPairs s1 s2) :=
        mul_pos hxpos hypos
      push_cast
      exact_mod_cast this
    have hsq : ((sxy (overlapPairs s1 s2) : ℝ)) ^ 2 ≤
        (sxx (overlapPairs s1 s2) : ℝ) * (syy (overlapPairs s1 s2) : ℝ) := by
      have := corr_cauchy_schwarz (overlapPairs s1 s2)
      push_cast
      exact_mod_cast this
    have habs : |(sxy (overlapPairs s1 s2) : ℝ)| ≤
        Real.sqrt ((sxx (overlapPairs s1 s2) : ℝ) * (syy (overlapPairs s1 s2) : ℝ)) := by
      rw [← Real.sqrt_sq_eq_abs]
      exact Real.sqrt_le_sqrt hsq
    have hsqrtpos : 0 < Real.sqrt ((sxx (overlapPairs s1 s2) : ℝ) *
        (syy (overlapPairs s1 s2) : ℝ)) := Real.sqrt_pos.2 hD
    have hr : |r| ≤ 1 := by
      rw [← Option.some.inj h, abs_div,
        abs_of_pos hsqrtpos, div_le_one hsqrtpos]
      exact habs
    exact abs_le.1 hr

theorem dReturns_keys_aux : ∀ (t : List (ℤ × ℚ)) (a : ℤ × ℚ),
    (List.zipWith (fun x y => (y.1, y.2 / x.2 - 1)) (a :: t) t).map (fun r => r.1) =
      t.map (fun r => r.1)
  | [], _ => rfl
  | b :: t2, a => by
    rw [List.zipWith_cons_cons, List.map_cons, List.map_cons]
    rw [dReturns_keys_aux t2 b]

theorem dReturns_keys (s : List (ℤ × ℚ)) :
    (dReturns s).map (fun r => r.1) = s.tail.map (fun r => r.1) := by
  cases s with
  | nil => rfl
  | cons a t => exact dReturns_keys_aux t a

theorem returns_keys_pairwise {f : Frame}
    (hm : f.rows.Pairwise (fun r s => r.1 < s.1)) :
    ((dReturns (adjSeries f)).map (fun r => r.1)).Pairwise (· < ·) := by
  rw [dReturns_keys]
  have h1 : (adjSeries f).Pairwise (fun r s => r.1 < s.1) := by
    rw [adjSeries]
    exact List.pairwise_map.2 hm
  have h2 : (adjSeries f).tail.Pairwise (fun r s => r.1 < s.1) :=
    h1.sublist (List.tail_sublist _)
  exact List.pairwise_map.2 h2

/-- C5 (amended).  Whenever every ranked ticker exposes `'Adj Close'`, the
produced correlation matrix has the supplied rank order on both axes (hence is
square with the same tickers on rows and columns), is symmetric, has every
defined (non-NaN) entry in `[-1, 1]` after the 4-decimal rounding, and its
diagonal is exactly `1.0` for every ticker whose overlapping return series has
nonzero variance — constant return series instead yield an undefined (NaN)
diagonal entry, which is the one deviation from the claim as stated. -/
theorem correlation_matrix_invariant_amended (dd : List (Ticker × Frame))
    (sorted : List Ticker) (hsorted2 : 2 ≤ sorted.length)
    (hmono : ∀ p ∈ dd, p.2.rows.Pairwise (fun r s => r.1 < s.1))
    (hcov : ∀ t ∈ sorted, (dictGet (dd.filter (fun p => p.2.hasAdjClose)) t).isSome) :
    ∃ M, calculate_correlation_table dd sorted = some M ∧
      M.rowTickers = sorted ∧ M.colTickers = sorted ∧
      (∀ a ∈ sorted, ∀ b ∈ sorted, M.entry a b = M.entry b a) ∧
      (∀ a ∈ sorted, ∀ fa, dictGet (dd.filter (fun p => p.2.hasAdjClose)) a = some fa →
        sxx (overlapPairs (dReturns (adjSeries fa)) (dReturns (adjSeries fa))) ≠ 0 →
        M.entry a a = some 1) ∧
      (∀ (a b : Ticker) (r : ℝ), M.entry a b = some r → -1 ≤ r ∧ r ≤ 1) := by
  have hifpos : sorted.all
      (fun t => (dictGet (dd.filter (fun p => p.2.hasAdjClose)) t).isSome) = true :=
    List.all_eq_true.2 (fun t ht => hcov t ht)
  refine ⟨⟨sorted, sorted, fun a b =>
      match dictGet (dd.filter (fun p => p.2.hasAdjClose)) a,
          dictGet (dd.filter (fun p => p.2.hasAdjClose)) b with
      | some fa, some fb =>
          (corrEntry (dReturns (adjSeries fa)) (dReturns (adjSeries fb))).map round4
      | _, _ => none⟩, ?_, rfl, rfl, ?_, ?_, ?_⟩
  · rw [calculate_correlation_table, if_pos hifpos]
  all_goals
    have hentry : ∀ a fa b fb,
        dictGet (dd.filter (fun p => p.2.hasAdjClose)) a = some fa →
        dictGet (dd.filter (fun p => p.2.hasAdjClose)) b = some fb →
        (match dictGet (dd.filter (fun p => p.2.hasAdjClose)) a,
            dictGet (dd.filter (fun p => p.2.hasAdjClose)) b with
        | some fa, some fb =>
            (corrEntry (dReturns (adjSeries fa)) (dReturns (adjSeries fb))).map round4
        | _, _ => none) =
          (corrEntry (dReturns (adjSeries fa)) (dReturns (adjSeries fb))).map round4 := by
      intro a fa b fb hfa hfb
      rw [hfa, hfb]
    have hpw : ∀ a fa, dictGet (dd.filter (fun p => p.2.hasAdjClose)) a = some fa →
        ((dReturns (adjSeries fa)).map (fun r => r.1)).Pairwise (· < ·) := by
      intro a fa hfa
      apply returns_keys_pairwise
      exact hmono (a, fa) (List.mem_of_mem_filter (mem_of_dictGet hfa))
  · intro a ha b hb
    obtain ⟨fa, hfa⟩ := Option.isSome_iff_exists.1 (hcov a ha)
    obtain ⟨fb, hfb⟩ := Option.isSome_iff_exists.1 (hcov b hb)
    show (match dictGet (dd.filter (fun p => p.2.hasAdjClose)) a,
        dictGet (dd.filter (fun p => p.2.hasAdjClose)) b with
      | some fa, some fb =>
          (corrEntry (dReturns (adjSeries fa)) (dReturns (adjSeries fb))).map round4
      | _, _ => none) =
      (match dictGet (dd.filter (fun p => p.2.hasAdjClose)) b,
        dictGet (dd.filter (fun p => p.2.hasAdjClose)) a with
      | some fa, some fb =>
          (corrEntry (dReturns (adjSeries fa)) (dReturns (adjSeries fb))).map round4
      | _, _ => none)
    rw [hentry a fa b fb hfa hfb, hentry b fb a fa hfb hfa]
    rw [corrEntry_symm (hpw a fa hfa) (hpw b fb hfb)]
  · intro a ha fa hfa hvar
    show (match dictGet (dd.filter (fun p => p.2.hasAdjClose)) a,
        dictGet (dd.filter (fun p => p.2.hasAdjClose)) a with
      | some fa, some fb =>
          (corrEntry (dReturns (adjSeries fa)) (dReturns (adjSeries fb))).map round4
      | _, _ => none) = some 1
    rw [hentry a fa a fa hfa hfa]
    have hnd : ((dReturns (adjSeries fa)).map (fun r => r.1)).Nodup :=
      (hpw a fa hfa).imp (fun {x y} h => ne_of_lt h)
    rw [corrEntry_self hnd hvar]
    show some (round4 1) = some 1
    rw [round4_one]
  · intro a b r hr
    have hr0 : (match dictGet (dd.filter (fun p => p.2.hasAdjClose)) a,
        dictGet (dd.filter (fun p => p.2.hasAdjClose)) b with
      | some fa, some fb =>
          (corrEntry (dReturns (adjSeries fa)) (dReturns (adjSeries fb))).map round4
      | _, _ => none) = some r := hr
    cases hga : dictGet (dd.filter (fun p => p.2.hasAdjClose)) a with
    | none =>
      rw [hga] at hr0
      exact Option.noConfusion (show (none : Option ℝ) = some r from hr0)
    | some fa =>
      rw [hga] at hr0
      cases hgb : dictGet (dd.filter (fun p => p.2.hasAdjClose)) b with
      | none =>
        rw [hgb] at hr0
        exact Option.noConfusion (show (none : Option ℝ) = some r from hr0)
      | some fb =>
        rw [hgb] at hr0
        have hr2 : Option.map round4
            (corrEntry (dReturns (adjSeries fa)) (dReturns (adjSeries fb))) = some r := hr0
        cases hce : corrEntry (dReturns (adjSeries fa)) (dReturns (adjSeries fb)) with
        | none =>
          rw [hce] at hr2
          exact Option.noConfusion (show (none : Option ℝ) = some r from hr2)
        | some raw =>
          rw [hce] at hr2
          have hreq : round4 raw = r :=
            Option.some.inj (show some (round4 raw) = some r from hr2)
          have hrawb : |raw| ≤ 1 := abs_le.2 (corrEntry_bounds hce)
          have hb := abs_round4_le_one hrawb
          rw [hreq] at hb
          exact abs_le.1 hb

/-- Witness for the amended C5 on a two-ticker dataset with non-constant
returns. -/
theorem correlation_matrix_invariant_amended_witness :
    ∃ M, calculate_correlation_table
        [("A", ⟨true, true, [(0, 1, 1), (1, 2, 2), (2, 3, 3)]⟩),
         ("B", ⟨true, true, [(0, 1, 1), (1, 2, 2), (2, 4, 4)]⟩)] ["A", "B"] = some M ∧
      M.rowTickers = ["A", "B"] ∧ M.colTickers = ["A", "B"] ∧
      (∀ a ∈ ["A", "B"], ∀ b ∈ ["A", "B"], M.entry a b = M.entry b a) ∧
      (∀ a ∈ ["A", "B"], ∀ fa, dictGet
          ([("A", (⟨true, true, [(0, 1, 1), (1, 2, 2), (2, 3, 3)]⟩ : Frame)),
            ("B", ⟨true, true, [(0, 1, 1), (1, 2, 2), (2, 4, 4)]⟩)].filter
            (fun p => p.2.hasAdjClose)) a = some fa →
        sxx (overlapPairs (dReturns (adjSeries fa)) (dReturns (adjSeries fa))) ≠ 0 →
        M.entry a a = some 1) ∧
      (∀ (a b : Ticker) (r : ℝ), M.entry a b = some r → -1 ≤ r ∧ r ≤ 1) :=
  correlation_matrix_invariant_amended
    [("A", ⟨true, true, [(0, 1, 1), (1, 2, 2), (2, 3, 3)]⟩),
     ("B", ⟨true, true, [(0, 1, 1), (1, 2, 2), (2, 4, 4)]⟩)] ["A", "B"]
    (by decide) (by decide) (by decide)

/-- Counterexample to C5 as stated: ticker A has two overlapping return
observations (prices 1, 2, 4 give two daily returns, both equal to 1), yet
the diagonal entry for A is NaN (here `none`), not 1.0 — pandas `corr`
divides by a zero standard deviation for a constant return series. -/
theorem correlation_diagonal_counterexample :
    (overlapPairs
        (dReturns (adjSeries (⟨true, true, [(0, 1, 1), (1, 2, 2), (2, 4, 4)]⟩ : Frame)))
        (dReturns (adjSeries (⟨true, true, [(0, 1, 1), (1, 2, 2), (2, 4, 4)]⟩ : Frame)))).length = 2 ∧
    (calculate_correlation_table
        [("A", ⟨true, true, [(0, 1, 1), (1, 2, 2), (2, 4, 4)]⟩),
         ("B", ⟨true, true, [(0, 1, 1), (1, 2, 2), (2, 3, 3)]⟩)] ["A", "B"]).map
      (fun M => M.entry "A" "A") = some none := by
  constructor
  · with_unfolding_all rfl
  · with_unfolding_all rfl

end CorrelationMatrix

end AssetAnalysis
